import Mathlib

/-!
Verification of the splitripper job-queue / scheduler / progress core.

Shallow embedding of:
* src/src/lib/utils.py        (parse_time_to_seconds, sanitize_filename, parse_artist_song)
* src/src/services/demucs.py  (parse_demucs_progress, MultiPassProgressTracker,
                               the progress-application gate of run_demucs_separation)
* src/src/lib/state.py        (QueueItem/AppState operations)
* src/src/services/worker.py  (download_worker scheduler loop)
* src/src/routes/queue.py     (api_stop, api_clear, api_cancel, api_start)

Python strings are embedded as List Char, Python floats as exact rationals,
Python ints as Int/Nat.  Fallible code returns Option.
-/

/-! ## Python string primitives -/

/-- The whitespace characters stripped by Python str.strip() and matched by
the regex class backslash-s (ASCII range, which is all the sources produce). -/
def pyIsSpace (c : Char) : Bool :=
  c == ' ' || c == '\t' || c == '\n' || c == '\r' || c == '\x0b' || c == '\x0c'

/-- Drop trailing characters satisfying p. -/
def dropTrailing (p : Char → Bool) (l : List Char) : List Char :=
  (l.reverse.dropWhile p).reverse

/-- Python str.strip() with no argument: remove leading and trailing whitespace. -/
def pyStrip (l : List Char) : List Char :=
  dropTrailing pyIsSpace (l.dropWhile pyIsSpace)

/-- Python str.strip(".") : remove leading and trailing dots. -/
def pyStripDots (l : List Char) : List Char :=
  dropTrailing (fun c => c == '.') (l.dropWhile (fun c => c == '.'))

/-- Value of a list of decimal digit characters read left to right. -/
def digitsVal (ds : List Char) : ℕ :=
  ds.foldl (fun acc c => 10 * acc + (c.toNat - '0'.toNat)) 0

/-- Python str.split(sep) for a single-character separator: "a:b" gives
["a","b"], "" gives [""], "::" gives ["","",""]. -/
def splitSep (sep : Char) : List Char → List (List Char)
  | [] => [[]]
  | c :: cs =>
    if c == sep then [] :: splitSep sep cs
    else
      match splitSep sep cs with
      | g :: gs => (c :: g) :: gs
      | [] => [[c]]

/-- Digit part of CPython int(): nonempty groups of digits separated by single
underscores ("1_0" is 10, "1__0", "_1", "1_" and "" are errors). -/
def pyIntCore (t : List Char) : Option ℕ :=
  let groups := splitSep '_' t
  if groups.all (fun g => !g.isEmpty && g.all Char.isDigit) then
    some (digitsVal (t.filter (fun c => c != '_')))
  else none

/-- CPython int(str): strip whitespace, optional sign, decimal digits with
underscore separators; error (None) otherwise. -/
def pyInt (cs : List Char) : Option ℤ :=
  match pyStrip cs with
  | '+' :: rest => (pyIntCore rest).map (fun n => (n : ℤ))
  | '-' :: rest => (pyIntCore rest).map (fun n => -(n : ℤ))
  | t => (pyIntCore t).map (fun n => (n : ℤ))

/-! ## lib/utils.py : parse_time_to_seconds -/

/-- The list comprehension [int(p) for p in parts]: None when any element fails. -/
def parseParts : List (List Char) → Option (List ℤ)
  | [] => some []
  | p :: ps =>
    match pyInt p, parseParts ps with
    | some v, some vs => some (v :: vs)
    | _, _ => none

/-- lib/utils.py parse_time_to_seconds: "HH:MM:SS" or "MM:SS" to total seconds,
clamped at 0; None when the parts do not parse or have another count. -/
def parse_time_to_seconds (ts : List Char) : Option ℕ :=
  let parts := splitSep ':' (pyStrip ts)
  match parseParts parts with
  | none => none
  | some vals =>
    match vals with
    | [h, m, s] => some (max 0 (h * 3600 + m * 60 + s)).toNat
    | [m, s] => some (max 0 (m * 60 + s)).toNat
    | _ => none

/-! ## services/demucs.py : parse_demucs_progress

The three regexes are modelled character-exactly; none of them needs
backtracking (greedy sub-matches are followed by characters outside the
repeated class), so maximal-munch scanners are faithful. -/

/-- Characters of the regex class [0-9:]. -/
def isTimeChar (c : Char) : Bool := c.isDigit || c == ':'

/-- re.match(r"\s*(\d+)%", s): leading whitespace, then digits, then a percent
sign, anchored at the start; returns the integer value of the digits. -/
def matchPct (s : List Char) : Option ℕ :=
  let t := s.dropWhile pyIsSpace
  let ds := t.takeWhile Char.isDigit
  if ds.isEmpty then none
  else
    match t.drop ds.length with
    | '%' :: _ => some (digitsVal ds)
    | _ => none

/-- Exact rational value of the decimal literal ip.fp . -/
def decVal (ip fp : List Char) : ℚ :=
  (digitsVal ip : ℚ) + (digitsVal fp : ℚ) / (10 : ℚ) ^ fp.length

/-- One arm of the fraction regex: \d+(?:\.\d+)? at the head of s, returning
its value and the unconsumed rest. -/
def matchDecimalAt (s : List Char) : Option (ℚ × List Char) :=
  let ds := s.takeWhile Char.isDigit
  if ds.isEmpty then none
  else
    let r := s.drop ds.length
    match r with
    | '.' :: r2 =>
      let fs := r2.takeWhile Char.isDigit
      if fs.isEmpty then some ((digitsVal ds : ℚ), r)
      else some (decVal ds fs, r2.drop fs.length)
    | _ => some ((digitsVal ds : ℚ), r)

/-- The full fraction pattern (\d+(?:\.\d+)?)/(\d+(?:\.\d+)?) at the head of s. -/
def matchFracAt (s : List Char) : Option (ℚ × ℚ) :=
  match matchDecimalAt s with
  | none => none
  | some (cur, r) =>
    match r with
    | '/' :: r2 =>
      match matchDecimalAt r2 with
      | none => none
      | some (tot, _) => some (cur, tot)
    | _ => none

/-- re.search of the fraction pattern: leftmost occurrence. -/
def searchFrac : List Char → Option (ℚ × ℚ)
  | [] => none
  | c :: cs =>
    match matchFracAt (c :: cs) with
    | some r => some r
    | none => searchFrac cs

/-- The bracketed ETA pattern (regex in demucs.py line 61) anchored at the head
of s; the capture group is the remaining-time component after the angle mark. -/
def matchEtaAt (s : List Char) : Option (List Char) :=
  match s with
  | '[' :: r =>
    let e := r.takeWhile isTimeChar
    if e.isEmpty then none
    else
      match (r.drop e.length).dropWhile pyIsSpace with
      | '<' :: r2 =>
        let r3 := r2.dropWhile pyIsSpace
        let rem := r3.takeWhile isTimeChar
        if rem.isEmpty then none
        else
          match (r3.drop rem.length).dropWhile pyIsSpace with
          | ',' :: _ => some rem
          | _ => none
      | _ => none
  | _ => none

/-- re.search of the ETA pattern: leftmost occurrence. -/
def searchEta : List Char → Option (List Char)
  | [] => none
  | c :: cs =>
    match matchEtaAt (c :: cs) with
    | some r => some r
    | none => searchEta cs

/-- services/demucs.py parse_demucs_progress: progress (percentage first,
else current/total fraction) and ETA seconds from one output line. -/
def parse_demucs_progress (line : List Char) : Option ℚ × Option ℕ :=
  let s := pyStrip line
  let prog : Option ℚ :=
    match matchPct s with
    | some pct => some (min (99/100 : ℚ) (max 0 ((pct : ℚ) / 100)))
    | none =>
      match searchFrac s with
      | some (cur, tot) =>
        if 0 < tot then some (min (99/100 : ℚ) (max 0 (cur / tot))) else none
      | none => none
  let eta : Option ℕ :=
    match searchEta s with
    | some rem => parse_time_to_seconds rem
    | none => none
  (prog, eta)

/-! ## services/demucs.py : MultiPassProgressTracker -/

/-- State of MultiPassProgressTracker (demucs.py lines 70-116). -/
structure MultiPassProgressTracker where
  num_passes : ℕ
  completed_passes : ℕ
  current_pass_progress : ℚ
  last_raw_progress : ℚ
  seen_high_progress : Bool
deriving DecidableEq

/-- Constructor: num_passes is clamped to at least 1. -/
def MultiPassProgressTracker.init (n : ℕ) : MultiPassProgressTracker :=
  { num_passes := max 1 n
    completed_passes := 0
    current_pass_progress := 0
    last_raw_progress := 0
    seen_high_progress := false }

/-- The pass-boundary test on demucs.py line 96: a high reading has been seen
in this pass, the new reading is below 0.2 and the previous one above 0.8. -/
def MultiPassProgressTracker.isBoundary (t : MultiPassProgressTracker) (raw : ℚ) : Bool :=
  t.seen_high_progress && decide (raw < 1/5) && decide (4/5 < t.last_raw_progress)

/-- get_overall_progress: single pass reports the raw value, multiple passes
report (completed + current) / total, both capped at 0.99. -/
def MultiPassProgressTracker.get_overall_progress (t : MultiPassProgressTracker) : ℚ :=
  if t.num_passes ≤ 1 then min (99/100) t.current_pass_progress
  else min (99/100) (((t.completed_passes : ℚ) + t.current_pass_progress) / (t.num_passes : ℚ))

/-- update(raw): detect a pass boundary, track the high-water flag, record the
reading, return the new state and overall progress.  A None reading (guarded
by the caller in the driver loop) changes nothing. -/
def MultiPassProgressTracker.update (t : MultiPassProgressTracker) :
    Option ℚ → MultiPassProgressTracker × ℚ
  | none => (t, t.get_overall_progress)
  | some raw =>
    let t1 :=
      if t.isBoundary raw then
        { t with completed_passes := min (t.completed_passes + 1) (t.num_passes - 1)
                 seen_high_progress := false }
      else t
    let t2 := if 1/2 < raw then { t1 with seen_high_progress := true } else t1
    let t3 := { t2 with current_pass_progress := raw, last_raw_progress := raw }
    (t3, t3.get_overall_progress)

/-- Number of update calls of a raw-reading sequence on which the boundary
test fires. -/
def countBoundaries (t : MultiPassProgressTracker) : List ℚ → ℕ
  | [] => 0
  | r :: rs =>
    (if t.isBoundary r then 1 else 0) + countBoundaries (t.update (some r)).1 rs

/-! ## services/demucs.py : the progress-application gate of
run_demucs_separation (lines 330-343).

The loop keeps a local last_progress, feeds each parsed reading through the
tracker, and writes the job record (progress, flags, scaled ETA) only when the
overall value strictly exceeds last_progress. -/

/-- The driver-visible progress state: the tracker and last applied value are
locals of run_demucs_separation; the item_ fields live in the QueueItem. -/
structure DriverState where
  tracker : MultiPassProgressTracker
  last_progress : ℚ
  item_progress : ℚ
  item_processing : Bool
  item_downloaded : Bool
  item_eta : Option ℕ
deriving DecidableEq

/-- Driver state at the top of the output loop (last_progress = 0.0; the job
record's separation fraction was reset to 0.0 at admission). -/
def DriverState.init (numPasses : ℕ) : DriverState :=
  { tracker := .init numPasses
    last_progress := 0
    item_progress := 0
    item_processing := false
    item_downloaded := false
    item_eta := none }

/-- The overall fraction the loop computes for one line, when the line parses. -/
def driverComputed (st : DriverState) (line : List Char) : Option ℚ :=
  match (parse_demucs_progress line).1 with
  | none => none
  | some raw => some (st.tracker.update (some raw)).2

/-- One iteration of the line-processing body (demucs.py lines 330-343):
parse, update the tracker, and apply the overall value to the job record
only when it strictly exceeds the last applied value. -/
def driverStep (numPasses : ℕ) (st : DriverState) (line : List Char) : DriverState :=
  let (raw, etaSec) := parse_demucs_progress line
  match raw with
  | none => st
  | some r =>
    let (tr, overall) := st.tracker.update (some r)
    if st.last_progress < overall then
      { st with
        tracker := tr
        last_progress := overall
        item_progress := overall
        item_processing := true
        item_downloaded := true
        item_eta :=
          match etaSec with
          | some e => some (e * (numPasses - tr.completed_passes))
          | none => st.item_eta }
    else { st with tracker := tr }

/-- The whole output stream fed through the loop body. -/
def driverRun (numPasses : ℕ) (st : DriverState) (lines : List (List Char)) : DriverState :=
  lines.foldl (driverStep numPasses) st

/-! ## lib/state.py : active count -/

/-- AppState.increment_active (state.py line 218). -/
def increment_active (a : ℤ) : ℤ := a + 1

/-- AppState.decrement_active (state.py line 222): floor-at-zero clamp. -/
def decrement_active (a : ℤ) : ℤ := max 0 (a - 1)

/-- A call to one of the two active-count mutators. -/
inductive ActiveOp
  | inc
  | dec
deriving DecidableEq

def applyActive (a : ℤ) : ActiveOp → ℤ
  | .inc => increment_active a
  | .dec => decrement_active a

def runActive (a : ℤ) (ops : List ActiveOp) : ℤ :=
  ops.foldl applyActive a

/-! ## The job/queue system model

QueueItem records (state.py lines 19-40) and the operations of the routes,
the scheduler loop and the per-job execution paths, each as an atomic step on
an explicit state.  Python keeps records alive through object references even
after clear_queue drops them from the list, so records carry an inQueue flag
instead of being deleted; the queue as the routes see it is the inQueue
sublist in order.  hasThread marks that a per-job execution thread launched at
admission is still running and holds a reference to the record. -/

inductive Status
  | queued
  | running
  | done
  | jobError
  | canceled
deriving DecidableEq

/-- QueueItem fields the core mutates (state.py lines 19-40). -/
structure Job where
  jid : ℕ
  status : Status
  progress : ℚ
  download_progress : ℚ
  processing : Bool
  downloaded : Bool
  errMsg : Option (List Char)
  dest_path : Option (List Char)
  inQueue : Bool
  hasThread : Bool
deriving DecidableEq

def Status.isTerminal : Status → Bool
  | .done | .jobError | .canceled => true
  | _ => false

/-- The shared mutable state of AppState that the claims concern. -/
structure SysState where
  jobs : List Job
  running : Bool
  active : ℤ
  stopSet : Bool
  maxConc : ℤ
deriving DecidableEq

/-- A freshly enqueued QueueItem (routes/queue.py api_add_queue: dataclass
defaults of state.py). -/
def freshJob (newId : ℕ) : Job :=
  { jid := newId
    status := .queued
    progress := 0
    download_progress := 0
    processing := false
    downloaded := false
    errMsg := none
    dest_path := none
    inQueue := true
    hasThread := false }

/-- routes/queue.py api_add_queue, one URL: append a queued record. -/
def enqueueOp (newId : ℕ) (s : SysState) : SysState :=
  { s with jobs := s.jobs ++ [freshJob newId] }

/-- routes/queue.py api_start (lines 166-183): no-op when already running,
else set the running flag, zero the active count and launch the worker. -/
def apiStartOp (s : SysState) : SysState :=
  if s.running then s else { s with running := true, active := 0 }

/-- routes/queue.py api_stop (lines 186-203): set the stop event and cancel
every queued item of the queue (process termination has no state effect here). -/
def apiStopOp (s : SysState) : SysState :=
  { s with
    stopSet := true
    jobs := s.jobs.map fun j =>
      if j.inQueue && j.status == .queued then { j with status := .canceled } else j }

/-- lib/state.py clear_queue on the record list: running_only keeps only the
records whose status is running, otherwise the queue is emptied. -/
def clearJobs (running_only : Bool) (jobs : List Job) : List Job :=
  if running_only then
    jobs.map fun j => { j with inQueue := j.inQueue && j.status == .running }
  else
    jobs.map fun j => { j with inQueue := false }

/-- routes/queue.py api_clear (lines 206-213): running_only exactly when the
scheduler's running flag is set. -/
def apiClearOp (s : SysState) : SysState :=
  if s.running then { s with jobs := clearJobs true s.jobs }
  else { s with jobs := clearJobs false s.jobs }

/-- lib/state.py get_queue_item: the for-loop returning the first in-queue
record with the given id, here as the index of that record. -/
def findQueueIdx (jid : ℕ) : List Job → Option ℕ
  | [] => none
  | j :: js =>
    if j.inQueue && j.jid == jid then some 0
    else (findQueueIdx jid js).map (· + 1)

inductive CancelResult
  | notFound
  | notQueued
  | ok
deriving DecidableEq

/-- routes/queue.py api_cancel (lines 216-226) on the record list: 404 when
the id is unknown; cancels the item only when it is still queued, else
reports failure and changes nothing. -/
def cancelInList (jid : ℕ) (js : List Job) : List Job × CancelResult :=
  match findQueueIdx jid js with
  | none => (js, .notFound)
  | some i =>
    match js.get? i with
    | none => (js, .notFound)
    | some j =>
      if j.status = .queued then (js.set i { j with status := .canceled }, .ok)
      else (js, .notQueued)

/-- routes/queue.py api_cancel on the state. -/
def api_cancel (jid : ℕ) (s : SysState) : SysState × CancelResult :=
  let (js, r) := cancelInList jid s.jobs
  ({ s with jobs := js }, r)

/-- routes/queue.py api_set_concurrency via the state.py setter (line 203):
clamp to [1,64]. -/
def setConcOp (n : ℤ) (s : SysState) : SysState :=
  { s with maxConc := max 1 (min 64 n) }

/-- worker.py lines 371-377: admission resets both fractions and both phase
flags, marks the item running, and its execution thread is started. -/
def startJob (j : Job) : Job :=
  { j with
    status := .running
    progress := 0
    download_progress := 0
    processing := false
    downloaded := false
    hasThread := true }

/-- Mark the first k in-queue queued records running (worker.py lines 363-383:
to_start = queued_items[:can_launch]); returns the launch count, one
increment_active per launch. -/
def admitList (k : ℤ) : List Job → List Job × ℤ
  | [] => ([], 0)
  | j :: js =>
    if 0 < k && j.inQueue && j.status == .queued then
      let (js2, c) := admitList (k - 1) js
      (startJob j :: js2, c + 1)
    else
      let (js2, c) := admitList k js
      (j :: js2, c)

/-- The admission arm of one scheduler iteration (worker.py lines 362-383). -/
def workerAdmitOp (s : SysState) : SysState :=
  let k := max 0 (s.maxConc - s.active)
  let (js, c) := admitList k s.jobs
  { s with jobs := js, active := s.active + c }

/-- The stop arm of one scheduler iteration (worker.py lines 352-357):
cancel every queued item of the queue. -/
def workerDrainOp (s : SysState) : SysState :=
  { s with
    jobs := s.jobs.map fun j =>
      if j.inQueue && j.status == .queued then { j with status := .canceled } else j }

/-- How a per-job execution path ends: the only status writes it performs
(worker.py _process_local_item / _process_youtube_item / _split_and_stage). -/
inductive FinishOutcome
  | fdone (dest : List Char)
  | ffail (msg : List Char)
  | fcanceled
deriving DecidableEq

def endJob (j : Job) : FinishOutcome → Job
  | .fdone dest =>
    { j with processing := false, progress := 1, status := .done
             dest_path := some dest, hasThread := false }
  | .ffail msg =>
    { j with processing := false, status := .jobError
             errMsg := some (msg.take 300), hasThread := false }
  | .fcanceled =>
    { j with status := .canceled, hasThread := false }

/-- Completion of a per-job execution thread: writes the terminal status and
decrements the active count.  Enabled only while the thread launched at
admission is live (hasThread), which is how the runtime sequences it. -/
def finishOp (i : ℕ) (o : FinishOutcome) (s : SysState) : SysState :=
  match s.jobs.get? i with
  | some j =>
    if j.hasThread then
      { s with jobs := s.jobs.set i (endJob j o), active := decrement_active s.active }
    else s
  | none => s

/-- worker.py line 394 (the finally clause): clear the running flag. -/
def workerExitOp (s : SysState) : SysState :=
  { s with running := false }

/-- Every atomic state mutation the embedded modules perform. -/
inductive Op
  | enqueue (newId : ℕ)
  | apiStart
  | apiStop
  | apiCancel (jid : ℕ)
  | apiClear
  | setConcurrency (n : ℤ)
  | workerAdmit
  | workerDrain
  | workerExit
  | finish (i : ℕ) (o : FinishOutcome)

def applyOp (s : SysState) : Op → SysState
  | .enqueue newId => enqueueOp newId s
  | .apiStart => apiStartOp s
  | .apiStop => apiStopOp s
  | .apiCancel jid => (api_cancel jid s).1
  | .apiClear => apiClearOp s
  | .setConcurrency n => setConcOp n s
  | .workerAdmit => workerAdmitOp s
  | .workerDrain => workerDrainOp s
  | .workerExit => workerExitOp s
  | .finish i o => finishOp i o s

/-- One iteration of the scheduler loop body (worker.py lines 351-391),
returning the state and whether the loop exits. -/
def workerLoopIter (s : SysState) : SysState × Bool :=
  if s.stopSet then (workerDrainOp s, true)
  else
    let s2 := workerAdmitOp s
    let stillRunning :=
      s2.jobs.any fun j => j.inQueue && (j.status == .queued || j.status == .running)
    if !stillRunning && s2.active == 0 then (s2, true) else (s2, false)

/-- The scheduler loop, fuel-bounded (the real loop sleeps between
iterations; fuel exhaustion stands for an unfinished run). -/
def workerLoop : ℕ → SysState → SysState
  | 0, s => s
  | Nat.succ fuel, s =>
    let (s2, ex) := workerLoopIter s
    if ex then s2 else workerLoop fuel s2

/-- worker.py download_worker (lines 342-395): clear the stop event, set the
running flag, run the loop, and clear the running flag in the finally clause
on every exit path. -/
def download_worker (fuel : ℕ) (s : SysState) : SysState :=
  let s0 := { s with stopSet := false, running := true }
  let s1 := workerLoop fuel s0
  { s1 with running := false }

/-- The queue as list operations on state.py see it. -/
def queueOf (s : SysState) : List Job :=
  s.jobs.filter (fun j => j.inQueue)

/-! ## lib/state.py clear_queue / routes/queue.py api_clear, list view

The literal source operates on the Python list self._queue; this is its
direct embedding, used for the queue-contents claims. -/

/-- state.py clear_queue (lines 174-179). -/
def clear_queue (q : List Job) (running_only : Bool) : List Job :=
  if running_only then q.filter (fun it => it.status == .running) else []

/-- routes/queue.py api_clear (lines 206-213) on the queue list, given the
scheduler's running flag. -/
def api_clear (running : Bool) (q : List Job) : List Job :=
  if running then clear_queue q true else clear_queue q false

/-! ## lib/utils.py : sanitize_filename and parse_artist_song -/

/-- The filesystem-unsafe characters replaced by sanitize_filename. -/
def forbiddenChar (c : Char) : Bool :=
  c == '<' || c == '>' || c == ':' || c == '\"' || c == '/' || c == '\\' ||
  c == '|' || c == '?' || c == '*'

/-- re.sub(r"\s+", " ", s): collapse every whitespace run to one space. -/
def collapseSpaces : List Char → List Char
  | [] => []
  | c :: cs =>
    let r := collapseSpaces cs
    if pyIsSpace c then
      match r with
      | ' ' :: rest => ' ' :: rest
      | _ => ' ' :: r
    else c :: r

/-- lib/utils.py sanitize_filename with its default max_length of 120 (the
only length the embedded callers use): replace forbidden characters, strip
whitespace then dots, collapse inner whitespace, strip, truncate, and fall
back to "untitled" when empty. -/
def sanitize_filename (name : List Char) : List Char :=
  let s1 := name.map (fun c => if forbiddenChar c then '_' else c)
  let s2 := pyStripDots (pyStrip s1)
  let s3 := pyStrip (collapseSpaces s2)
  let s4 := s3.take 120
  if s4.isEmpty then "untitled".data else s4

/-- The separator class of parse_artist_song: hyphen, en-dash, em-dash. -/
def isDashSep (c : Char) : Bool :=
  c == '-' || c == '–' || c == '—'

/-- The tail of the title regex, backslash-s* followed by a greedy dot-plus
group: skip the maximal whitespace run and capture up to the first newline;
when everything is whitespace the engine backtracks and the capture is the
last character that is not a newline. -/
def matchDotPlus (s : List Char) : Option (List Char) :=
  let w := s.takeWhile pyIsSpace
  let r := s.drop w.length
  match r with
  | _ :: _ => some (r.takeWhile (fun ch => ch != '\n'))
  | [] =>
    match s.reverse.dropWhile (fun ch => ch == '\n') with
    | c :: _ => some [c]
    | [] => none

/-- The title-splitting regex of parse_artist_song (utils.py line 90): a
nonempty run of non-dash characters, a dash separator, then the song group. -/
def matchArtistSong (base : List Char) : Option (List Char × List Char) :=
  let g1 := base.takeWhile (fun c => !(isDashSep c))
  if g1.isEmpty then none
  else
    match base.drop g1.length with
    | _d :: rest =>
      match matchDotPlus rest with
      | some g2 => some (g1, g2)
      | none => none
    | [] => none

/-- Python "x or None" for an optional string: empty collapses to None. -/
def pyOrNone (c : Option (List Char)) : Option (List Char) :=
  match c with
  | some s => if s.isEmpty then none else some s
  | none => none

/-- Python "(channel and sanitize_filename(channel)) or None". -/
def chanAndSanitize (c : Option (List Char)) : Option (List Char) :=
  match c with
  | some s =>
    if s.isEmpty then none
    else
      let t := sanitize_filename s
      if t.isEmpty then none else some t
  | none => none

/-- lib/utils.py parse_artist_song (lines 70-97). -/
def parse_artist_song (title channel : Option (List Char)) :
    Option (List Char) × List Char :=
  let base := pyStrip (title.getD [])
  if base.isEmpty then (pyOrNone channel, "untitled".data)
  else
    match matchArtistSong base with
    | some (g1, g2) =>
      let artist := sanitize_filename (pyStrip g1)
      let song := sanitize_filename (pyStrip g2)
      ((if artist.isEmpty then pyOrNone channel else some artist), song)
    | none => (chanAndSanitize channel, sanitize_filename base)

/-! ## Statement-level predicates -/

/-- Text of the decimal literal ip.fp (fractional part optional). -/
def decTok (ip : List Char) (fp : Option (List Char)) : List Char :=
  ip ++ (match fp with | none => [] | some f => '.' :: f)

/-- Value of the decimal literal ip.fp . -/
def decv (ip : List Char) (fp : Option (List Char)) : ℚ :=
  match fp with
  | none => (digitsVal ip : ℚ)
  | some f => decVal ip f

/-- The text after a decimal literal does not extend it: its first character
is neither a digit nor a dot. -/
def headNotDec (post : List Char) : Prop :=
  ∀ x, post.head? = some x → x.isDigit = false ∧ x ≠ '.'

/-- The spec's shape of a well-formed time string over the alphabet [0-9:]:
two or three colon-separated components, each a nonempty digit string
(MM:SS or H:MM:SS). -/
def specTimeFormat (ts : List Char) : Bool :=
  let ps := splitSep ':' ts
  (ps.length == 2 || ps.length == 3) && ps.all (fun p => !p.isEmpty && p.all Char.isDigit)

/-- Reachable-tracker invariant: at least one pass, completed passes below
the cap. -/
def trackerInv (t : MultiPassProgressTracker) : Prop :=
  1 ≤ t.num_passes ∧ t.completed_passes ≤ t.num_passes - 1

/-- The job status state machine of the spec: stay put, queued to running or
canceled, running to a terminal state. -/
def allowedStatusStep (a b : Status) : Prop :=
  a = b
  ∨ (a = .queued ∧ (b = .running ∨ b = .canceled))
  ∨ (a = .running ∧ (b = .done ∨ b = .jobError ∨ b = .canceled))

/-- Runtime structure invariant: a live per-job execution thread exists only
for a record in the running state. -/
def threadInv (s : SysState) : Prop :=
  ∀ j ∈ s.jobs, j.hasThread = true → j.status = .running

/-- Concrete state for the cancellation scenario: three freshly enqueued jobs,
the worker loop running, nothing admitted yet. -/
def exState3 : SysState :=
  { jobs := [freshJob 0, freshJob 1, freshJob 2], running := true,
    active := 0, stopSet := false, maxConc := 4 }

/-- Concrete state for the clear scenario: one running job whose execution
thread is still alive after the scheduler loop has exited. -/
def exStateClear : SysState :=
  { jobs := [{ freshJob 7 with status := Status.running, hasThread := true }],
    running := false, active := 1, stopSet := true, maxConc := 4 }

/-! # Helper lemmas -/

theorem space_not_digit {c : Char} (h : pyIsSpace c = true) : c.isDigit = false := by
  simp only [pyIsSpace, Bool.or_eq_true, beq_iff_eq] at h
  rcases h with ((((h | h) | h) | h) | h) | h <;> subst h <;> decide

theorem digit_not_space {c : Char} (h : c.isDigit = true) : pyIsSpace c = false := by
  cases hx : pyIsSpace c
  · rfl
  · rw [space_not_digit hx] at h
    exact absurd h Bool.false_ne_true

theorem timeChar_not_space {c : Char} (h : isTimeChar c = true) : pyIsSpace c = false := by
  simp only [isTimeChar, Bool.or_eq_true, beq_iff_eq] at h
  rcases h with h | h
  · exact digit_not_space h
  · subst h; decide

theorem takeWhile_append_all (p : Char → Bool) :
    ∀ (ds rest : List Char), (∀ c ∈ ds, p c = true) →
      (∀ x, rest.head? = some x → p x = false) →
      (ds ++ rest).takeWhile p = ds
  | [], rest, _, hrest => by
    cases rest with
    | nil => rfl
    | cons x xs => simp [List.takeWhile_cons, hrest x rfl]
  | d :: ds, rest, hall, hrest => by
    have hd : p d = true := hall d (List.mem_cons_self d ds)
    simp only [List.cons_append, List.takeWhile_cons, hd, if_true]
    rw [takeWhile_append_all p ds rest (fun c hc => hall c (List.mem_cons_of_mem d hc)) hrest]

theorem takeWhile_all_eq (p : Char → Bool) (l : List Char) (h : ∀ c ∈ l, p c = true) :
    l.takeWhile p = l := by
  have h2 := takeWhile_append_all p l [] h (by intro x hx; simp at hx)
  simpa using h2

theorem isEmpty_false_of_ne {l : List Char} (h : l ≠ []) : l.isEmpty = false := by
  cases l with
  | nil => exact absurd rfl h
  | cons a l => rfl

theorem matchPct_pct (ds rest : List Char) (hne : ds ≠ [])
    (hd : ∀ c ∈ ds, c.isDigit = true) :
    matchPct (ds ++ '%' :: rest) = some (digitsVal ds) := by
  have htake : (ds ++ '%' :: rest).takeWhile Char.isDigit = ds :=
    takeWhile_append_all _ ds _ hd (by intro x hx; simp at hx; subst hx; decide)
  have hdropw : (ds ++ '%' :: rest).dropWhile pyIsSpace = ds ++ '%' :: rest := by
    cases ds with
    | nil => exact absurd rfl hne
    | cons d0 ds2 =>
      have h0 : pyIsSpace d0 = false := digit_not_space (hd d0 (List.mem_cons_self _ _))
      simp [List.dropWhile_cons, h0]
  simp only [matchPct, hdropw, htake, isEmpty_false_of_ne hne, Bool.false_eq_true, if_false]
  rw [List.drop_left]
  rfl

theorem matchDecimalAt_head_not_digit {c : Char} (cs : List Char) (h : c.isDigit = false) :
    matchDecimalAt (c :: cs) = none := by
  simp [matchDecimalAt, List.takeWhile_cons, h]

theorem matchDecimalAt_spec (ip : List Char) (fp : Option (List Char)) (rest : List Char)
    (hip : ip ≠ []) (hipd : ∀ c ∈ ip, c.isDigit = true)
    (hfp : ∀ f, fp = some f → f ≠ [] ∧ ∀ c ∈ f, c.isDigit = true)
    (hrest : headNotDec rest) :
    matchDecimalAt (decTok ip fp ++ rest) = some (decv ip fp, rest) := by
  cases fp with
  | none =>
    have htake : (ip ++ rest).takeWhile Char.isDigit = ip :=
      takeWhile_append_all _ ip rest hipd (fun x hx => (hrest x hx).1)
    have harr : decTok ip none ++ rest = ip ++ rest := by simp [decTok]
    rw [harr]
    simp only [matchDecimalAt, htake, isEmpty_false_of_ne hip, Bool.false_eq_true, if_false]
    rw [List.drop_left]
    cases rest with
    | nil => rfl
    | cons x xs =>
      obtain ⟨hxd, hxdot⟩ := hrest x rfl
      simp only [decv]
      split
      · next r2 heq =>
        injection heq with h1 _
        exact absurd h1 hxdot
      · next => rfl
  | some f =>
    obtain ⟨hf, hfd⟩ := hfp f rfl
    have htake : (ip ++ '.' :: (f ++ rest)).takeWhile Char.isDigit = ip :=
      takeWhile_append_all _ ip _ hipd (by intro x hx; simp at hx; subst hx; decide)
    have htake2 : (f ++ rest).takeWhile Char.isDigit = f :=
      takeWhile_append_all _ f rest hfd (fun x hx => (hrest x hx).1)
    have harr : decTok ip (some f) ++ rest = ip ++ '.' :: (f ++ rest) := by
      simp [decTok]
    rw [harr]
    simp only [matchDecimalAt, htake, isEmpty_false_of_ne hip, Bool.false_eq_true, if_false]
    rw [List.drop_left]
    simp only [htake2, isEmpty_false_of_ne hf, Bool.false_eq_true, if_false]
    rw [List.drop_left]
    simp [decv]

theorem matchFracAt_spec (ip tp : List Char) (fp tfp : Option (List Char)) (post : List Char)
    (hip : ip ≠ []) (hipd : ∀ c ∈ ip, c.isDigit = true)
    (hfp : ∀ f, fp = some f → f ≠ [] ∧ ∀ c ∈ f, c.isDigit = true)
    (htp : tp ≠ []) (htpd : ∀ c ∈ tp, c.isDigit = true)
    (htfp : ∀ f, tfp = some f → f ≠ [] ∧ ∀ c ∈ f, c.isDigit = true)
    (hpost : headNotDec post) :
    matchFracAt (decTok ip fp ++ '/' :: (decTok tp tfp ++ post)) =
      some (decv ip fp, decv tp tfp) := by
  have h1 := matchDecimalAt_spec ip fp ('/' :: (decTok tp tfp ++ post)) hip hipd hfp
    (by intro x hx; simp at hx; subst hx; exact ⟨by decide, by decide⟩)
  have h2 := matchDecimalAt_spec tp tfp post htp htpd htfp hpost
  simp only [matchFracAt, h1, h2]

theorem searchFrac_of_matchFracAt {t : List Char} {r : ℚ × ℚ} (hne : t ≠ [])
    (h : matchFracAt t = some r) : searchFrac t = some r := by
  cases t with
  | nil => exact absurd rfl hne
  | cons c cs => simp [searchFrac, h]

theorem searchFrac_append_no_digit :
    ∀ (pre t : List Char), (∀ c ∈ pre, c.isDigit = false) →
      searchFrac (pre ++ t) = searchFrac t
  | [], t, _ => rfl
  | c :: pre, t, h => by
    have hc : c.isDigit = false := h c (List.mem_cons_self _ _)
    have hm : matchFracAt (c :: (pre ++ t)) = none := by
      simp [matchFracAt, matchDecimalAt_head_not_digit _ hc]
    rw [List.cons_append]
    simp only [searchFrac, hm]
    exact searchFrac_append_no_digit pre t (fun x hx => h x (List.mem_cons_of_mem _ hx))

theorem decv_nonneg (ip : List Char) (fp : Option (List Char)) : 0 ≤ decv ip fp := by
  cases fp with
  | none => simp [decv]
  | some f =>
    simp only [decv, decVal]
    positivity

/-- Claim C4: progress-line parsing.  A line whose stripped text begins with
digits NN followed by a percent sign parses to min(0.99, NN/100), whatever
follows (so any current/total pair after it is ignored: percentage wins).  A
line with no leading percentage whose first decimal pair is cur/total parses
to min(0.99, cur/total) when total is positive and to nothing when total is
zero. -/
theorem C4_progress_line_parsing :
    (∀ (line ds rest : List Char),
        pyStrip line = ds ++ '%' :: rest → ds ≠ [] → (∀ c ∈ ds, c.isDigit = true) →
        (parse_demucs_progress line).1 = some (min (99/100 : ℚ) ((digitsVal ds : ℚ) / 100)))
    ∧
    (∀ (line pre ip tp : List Char) (fp tfp : Option (List Char)) (post : List Char),
        pyStrip line = pre ++ (decTok ip fp ++ '/' :: (decTok tp tfp ++ post)) →
        matchPct (pyStrip line) = none →
        (∀ c ∈ pre, c.isDigit = false) →
        ip ≠ [] → (∀ c ∈ ip, c.isDigit = true) →
        (∀ f, fp = some f → f ≠ [] ∧ ∀ c ∈ f, c.isDigit = true) →
        tp ≠ [] → (∀ c ∈ tp, c.isDigit = true) →
        (∀ f, tfp = some f → f ≠ [] ∧ ∀ c ∈ f, c.isDigit = true) →
        headNotDec post →
        (parse_demucs_progress line).1 =
          if 0 < decv tp tfp then some (min (99/100 : ℚ) (decv ip fp / decv tp tfp))
          else none) := by
  constructor
  · intro line ds rest hline hne hd
    have hm : matchPct (pyStrip line) = some (digitsVal ds) := by
      rw [hline]; exact matchPct_pct ds rest hne hd
    simp only [parse_demucs_progress, hm]
    congr 1
    rw [max_eq_right (by positivity)]
  · intro line pre ip tp fp tfp post hline hpct hpre hip hipd hfp htp htpd htfp hpost
    have hfrac := matchFracAt_spec ip tp fp tfp post hip hipd hfp htp htpd htfp hpost
    have htne : decTok ip fp ++ '/' :: (decTok tp tfp ++ post) ≠ [] := by
      simp [decTok]
    have hsearch : searchFrac (pyStrip line) = some (decv ip fp, decv tp tfp) := by
      rw [hline, searchFrac_append_no_digit pre _ hpre]
      exact searchFrac_of_matchFracAt htne hfrac
    simp only [parse_demucs_progress, hpct, hsearch]
    by_cases hpos : 0 < decv tp tfp
    · rw [if_pos hpos, if_pos hpos]
      congr 1
      rw [max_eq_right (div_nonneg (decv_nonneg ip fp) (le_of_lt hpos))]
    · rw [if_neg hpos, if_neg hpos]

/-- Witness for C4 at concrete lines. -/
theorem C4_progress_line_parsing_witness :
    (parse_demucs_progress "61%|x 1/2".data).1
        = some (min (99/100 : ℚ) ((digitsVal ['6','1'] : ℚ) / 100))
    ∧ (parse_demucs_progress "ab 146.25/239.85 c".data).1
        = (if 0 < decv ['2','3','9'] (some ['8','5'])
           then some (min (99/100 : ℚ)
                  (decv ['1','4','6'] (some ['2','5']) / decv ['2','3','9'] (some ['8','5'])))
           else none)
    ∧ (parse_demucs_progress "x 3/0 y".data).1
        = (if 0 < decv ['0'] none
           then some (min (99/100 : ℚ) (decv ['3'] none / decv ['0'] none))
           else none) :=
  ⟨C4_progress_line_parsing.1 "61%|x 1/2".data ['6','1'] "|x 1/2".data
      (by decide) (by decide) (by decide),
   C4_progress_line_parsing.2 "ab 146.25/239.85 c".data "ab ".data
      ['1','4','6'] ['2','3','9'] (some ['2','5']) (some ['8','5']) " c".data
      (by decide) (by decide) (by decide) (by decide) (by decide)
      (by intro f hf; cases hf; exact ⟨by decide, by decide⟩)
      (by decide) (by decide)
      (by intro f hf; cases hf; exact ⟨by decide, by decide⟩)
      (by intro x hx; cases hx; exact ⟨by decide, by decide⟩),
   C4_progress_line_parsing.2 "x 3/0 y".data "x ".data
      ['3'] ['0'] none none " y".data
      (by decide) (by decide) (by decide) (by decide) (by decide)
      (by intro f hf; cases hf)
      (by decide) (by decide)
      (by intro f hf; cases hf)
      (by intro x hx; cases hx; exact ⟨by decide, by decide⟩)⟩

theorem matchEtaAt_not_bracket {c : Char} (cs : List Char) (h : c ≠ '[') :
    matchEtaAt (c :: cs) = none := by
  unfold matchEtaAt
  split
  · next r heq =>
    injection heq with h1 _
    exact absurd h1 h
  · rfl

theorem searchEta_append_no_bracket :
    ∀ (pre t : List Char), '[' ∉ pre → searchEta (pre ++ t) = searchEta t
  | [], t, _ => rfl
  | c :: pre, t, h => by
    have hc : c ≠ '[' := by
      intro hh
      exact h (hh ▸ List.mem_cons_self _ _)
    rw [List.cons_append]
    simp only [searchEta, matchEtaAt_not_bracket _ hc]
    exact searchEta_append_no_bracket pre t (fun hx => h (List.mem_cons_of_mem _ hx))

theorem matchEtaAt_spec (e r post : List Char) (he : e ≠ [])
    (hed : ∀ c ∈ e, isTimeChar c = true) (hr : r ≠ [])
    (hrd : ∀ c ∈ r, isTimeChar c = true) :
    matchEtaAt ('[' :: (e ++ '<' :: (r ++ ',' :: post))) = some r := by
  have htake1 : (e ++ '<' :: (r ++ ',' :: post)).takeWhile isTimeChar = e :=
    takeWhile_append_all _ e _ hed (by intro x hx; simp at hx; subst hx; decide)
  have hdrop1 : (e ++ '<' :: (r ++ ',' :: post)).drop e.length = '<' :: (r ++ ',' :: post) :=
    List.drop_left _ _
  have hlt : pyIsSpace '<' = false := by decide
  have hdw1 : ('<' :: (r ++ ',' :: post)).dropWhile pyIsSpace = '<' :: (r ++ ',' :: post) := by
    simp [List.dropWhile_cons, hlt]
  have hdw2 : (r ++ ',' :: post).dropWhile pyIsSpace = r ++ ',' :: post := by
    cases r with
    | nil => exact absurd rfl hr
    | cons a l =>
      have ha : pyIsSpace a = false := timeChar_not_space (hrd a (List.mem_cons_self _ _))
      simp [List.dropWhile_cons, ha]
  have htake2 : (r ++ ',' :: post).takeWhile isTimeChar = r :=
    takeWhile_append_all _ r _ hrd (by intro x hx; simp at hx; subst hx; decide)
  have hdrop2 : (r ++ ',' :: post).drop r.length = ',' :: post := List.drop_left _ _
  have hcm : pyIsSpace ',' = false := by decide
  have hdw3 : (',' :: post).dropWhile pyIsSpace = ',' :: post := by
    simp [List.dropWhile_cons, hcm]
  simp only [matchEtaAt, htake1, isEmpty_false_of_ne he, Bool.false_eq_true, if_false,
    hdrop1, hdw1, hdw2, htake2, isEmpty_false_of_ne hr, hdrop2, hdw3]

theorem dropWhile_all_false (p : Char → Bool) (l : List Char) (h : ∀ c ∈ l, p c = false) :
    l.dropWhile p = l := by
  cases l with
  | nil => rfl
  | cons a l2 => simp [List.dropWhile_cons, h a (List.mem_cons_self _ _)]

theorem pyStrip_all_nonspace (l : List Char) (h : ∀ c ∈ l, pyIsSpace c = false) :
    pyStrip l = l := by
  unfold pyStrip dropTrailing
  rw [dropWhile_all_false _ _ h,
    dropWhile_all_false _ _ (by intro c hc; exact h c (List.mem_reverse.mp hc)),
    List.reverse_reverse]

theorem splitSep_chars (sep : Char) :
    ∀ (l : List Char), ∀ p ∈ splitSep sep l, ∀ c ∈ p, c ∈ l ∧ (c == sep) = false
  | [], p, hp, c, hc => by
    simp only [splitSep, List.mem_singleton] at hp
    subst hp
    cases hc
  | c0 :: cs, p, hp, c, hc => by
    by_cases h0 : (c0 == sep) = true
    · simp only [splitSep, h0, if_true, List.mem_cons] at hp
      rcases hp with rfl | hp2
      · cases hc
      · obtain ⟨hm, hne⟩ := splitSep_chars sep cs p hp2 c hc
        exact ⟨List.mem_cons_of_mem _ hm, hne⟩
    · rw [Bool.not_eq_true] at h0
      rcases hcs : splitSep sep cs with _ | ⟨g, gs⟩
      · simp only [splitSep, h0, Bool.false_eq_true, if_false, hcs, List.mem_singleton] at hp
        subst hp
        rcases List.mem_singleton.mp hc with rfl
        exact ⟨List.mem_cons_self _ _, h0⟩
      · simp only [splitSep, h0, Bool.false_eq_true, if_false, hcs, List.mem_cons] at hp
        rcases hp with hp1 | hp2
        · subst hp1
          rcases List.mem_cons.mp hc with hceq | hc2
          · subst hceq
            exact ⟨List.mem_cons_self _ _, h0⟩
          · obtain ⟨hm, hne⟩ := splitSep_chars sep cs g (by rw [hcs]; exact List.mem_cons_self _ _) c hc2
            exact ⟨List.mem_cons_of_mem _ hm, hne⟩
        · obtain ⟨hm, hne⟩ := splitSep_chars sep cs p (by rw [hcs]; exact List.mem_cons_of_mem _ hp2) c hc
          exact ⟨List.mem_cons_of_mem _ hm, hne⟩

theorem splitSep_no_sep (sep : Char) :
    ∀ (l : List Char), (∀ c ∈ l, (c == sep) = false) → splitSep sep l = [l]
  | [], _ => rfl
  | c :: cs, h => by
    have hc := h c (List.mem_cons_self _ _)
    simp only [splitSep, hc, Bool.false_eq_true, if_false]
    rw [splitSep_no_sep sep cs (fun x hx => h x (List.mem_cons_of_mem _ hx))]

theorem filter_ne_all (sep : Char) (l : List Char) (h : ∀ c ∈ l, (c == sep) = false) :
    l.filter (fun c => c != sep) = l := by
  induction l with
  | nil => rfl
  | cons a l2 ih =>
    have ha := h a (List.mem_cons_self _ _)
    have hane : (a != sep) = true := by simp [bne, ha]
    simp only [List.filter_cons, hane, if_true]
    rw [ih (fun x hx => h x (List.mem_cons_of_mem _ hx))]

theorem pyInt_digits (p : List Char) (hd : ∀ c ∈ p, c.isDigit = true) :
    pyInt p = if p.isEmpty then none else some (digitsVal p : ℤ) := by
  have hstrip : pyStrip p = p :=
    pyStrip_all_nonspace p (fun c hc => digit_not_space (hd c hc))
  cases p with
  | nil => rfl
  | cons a l =>
    have ha : a.isDigit = true := hd a (List.mem_cons_self _ _)
    have ha1 : a ≠ '+' := by
      intro hh
      rw [hh] at ha
      exact absurd ha (by decide)
    have ha2 : a ≠ '-' := by
      intro hh
      rw [hh] at ha
      exact absurd ha (by decide)
    have hnu : ∀ c ∈ a :: l, (c == '_') = false := by
      intro c hc
      have hcd := hd c hc
      rw [beq_eq_false_iff_ne]
      intro hh
      rw [hh] at hcd
      exact absurd hcd (by decide)
    have hcore : pyIntCore (a :: l) = some (digitsVal (a :: l)) := by
      have hall : ([a :: l].all (fun g => !g.isEmpty && g.all Char.isDigit)) = true := by
        simp only [List.all_cons, List.all_nil, Bool.and_true, List.isEmpty_cons,
          Bool.not_false, Bool.true_and]
        rw [ha, Bool.true_and, List.all_eq_true]
        intro c hc
        exact hd c (List.mem_cons_of_mem _ hc)
      simp only [pyIntCore]
      rw [splitSep_no_sep '_' (a :: l) hnu, hall, if_pos rfl,
        filter_ne_all '_' (a :: l) hnu]
    unfold pyInt
    rw [hstrip]
    split
    · next rest heq =>
      injection heq with h1 _
      exact absurd h1 ha1
    · next rest heq =>
      injection heq with h1 _
      exact absurd h1 ha2
    · next t h1 h2 =>
      simp [hcore]

theorem parseParts_none_of_mem {ps : List (List Char)} {p : List Char}
    (hp : p ∈ ps) (h : pyInt p = none) : parseParts ps = none := by
  induction ps with
  | nil => cases hp
  | cons q qs ih =>
    rcases List.mem_cons.mp hp with hq | hp2
    · subst hq
      simp [parseParts, h]
    · cases hq : pyInt q <;> simp [parseParts, hq, ih hp2]

theorem parseParts_all_some {ps : List (List Char)}
    (h : ∀ p ∈ ps, ∃ v, pyInt p = some v) :
    ∃ vs, parseParts ps = some vs ∧ vs.length = ps.length := by
  induction ps with
  | nil => exact ⟨[], rfl, rfl⟩
  | cons q qs ih =>
    obtain ⟨v, hv⟩ := h q (List.mem_cons_self _ _)
    obtain ⟨vs, hvs, hlen⟩ := ih (fun p hp => h p (List.mem_cons_of_mem _ hp))
    exact ⟨v :: vs, by simp [parseParts, hv, hvs], by simp [hlen]⟩

/-- Claim C5: ETA parsing.  A line containing a bracketed elapsed/remaining
pair parses its ETA to the remaining component converted to seconds; "01:30"
converts to 90 and "1:02:03" to 3723; a time string over the [0-9:] alphabet
that is not of MM:SS or H:MM:SS digit shape converts to nothing. -/
theorem C5_eta_parsing :
    (∀ (line pre e r post : List Char),
        pyStrip line = pre ++ '[' :: (e ++ '<' :: (r ++ ',' :: post)) →
        '[' ∉ pre →
        e ≠ [] → (∀ c ∈ e, isTimeChar c = true) →
        r ≠ [] → (∀ c ∈ r, isTimeChar c = true) →
        (parse_demucs_progress line).2 = parse_time_to_seconds r)
    ∧ parse_time_to_seconds "01:30".data = some 90
    ∧ parse_time_to_seconds "1:02:03".data = some 3723
    ∧ (∀ ts : List Char, (∀ c ∈ ts, isTimeChar c = true) → specTimeFormat ts = false →
        parse_time_to_seconds ts = none) := by
  refine ⟨?_, by decide, by decide, ?_⟩
  · intro line pre e r post hline hpre he hed hr hrd
    have heta : searchEta (pyStrip line) = some r := by
      rw [hline, searchEta_append_no_bracket pre _ hpre]
      simp only [searchEta, matchEtaAt_spec e r post he hed hr hrd]
    simp only [parse_demucs_progress, heta]
  · intro ts hall hbad
    have hstrip : pyStrip ts = ts :=
      pyStrip_all_nonspace ts (fun c hc => timeChar_not_space (hall c hc))
    have hpd : ∀ p ∈ splitSep ':' ts, ∀ c ∈ p, c.isDigit = true := by
      intro p hp c hc
      obtain ⟨hcl, hcne⟩ := splitSep_chars ':' ts p hp c hc
      have hct := hall c hcl
      simp only [isTimeChar, Bool.or_eq_true] at hct
      rcases hct with h | h
      · exact h
      · rw [h] at hcne
        exact absurd hcne (by decide)
    simp only [parse_time_to_seconds, hstrip]
    by_cases hne : ∀ p ∈ splitSep ':' ts, p ≠ []
    · have hall2 : (splitSep ':' ts).all (fun p => !p.isEmpty && p.all Char.isDigit) = true := by
        rw [List.all_eq_true]
        intro p hp
        rw [Bool.and_eq_true]
        refine ⟨?_, ?_⟩
        · rw [isEmpty_false_of_ne (hne p hp)]
          rfl
        · rw [List.all_eq_true]
          intro c hc
          exact hpd p hp c hc
      have hlenb : ((splitSep ':' ts).length == 2 || (splitSep ':' ts).length == 3) = false := by
        have hb : (((splitSep ':' ts).length == 2 || (splitSep ':' ts).length == 3)
            && (splitSep ':' ts).all (fun p => !p.isEmpty && p.all Char.isDigit)) = false := hbad
        rw [hall2, Bool.and_true] at hb
        exact hb
      obtain ⟨hl2, hl3⟩ : (splitSep ':' ts).length ≠ 2 ∧ (splitSep ':' ts).length ≠ 3 := by
        rw [Bool.or_eq_false_iff] at hlenb
        exact ⟨by simpa using hlenb.1, by simpa using hlenb.2⟩
      have hsome : ∀ p ∈ splitSep ':' ts, ∃ v, pyInt p = some v := by
        intro p hp
        rw [pyInt_digits p (hpd p hp), if_neg (by simp [isEmpty_false_of_ne (hne p hp)])]
        exact ⟨_, rfl⟩
      obtain ⟨vs, hvs, hvlen⟩ := parseParts_all_some hsome
      rw [hvs]
      rcases vs with _ | ⟨a, _ | ⟨b, _ | ⟨c, _ | ⟨d, rest⟩⟩⟩⟩
      · rfl
      · rfl
      · exact absurd (hvlen ▸ rfl) hl2
      · exact absurd (hvlen ▸ rfl) hl3
      · rfl
    · push_neg at hne
      obtain ⟨p, hp, hpe⟩ := hne
      have hpn : pyInt p = none := by
        rw [pyInt_digits p (hpd p hp), hpe]
        rfl
      rw [parseParts_none_of_mem hp hpn]

/-- Witness for C5 at concrete lines and time strings. -/
theorem C5_eta_parsing_witness :
    (parse_demucs_progress "50%| [01:00<01:30, 1.5s/it]".data).2
        = parse_time_to_seconds "01:30".data
    ∧ parse_time_to_seconds "1:2:3:4".data = none :=
  ⟨C5_eta_parsing.1 "50%| [01:00<01:30, 1.5s/it]".data "50%| ".data
      "01:00".data "01:30".data " 1.5s/it]".data
      (by decide) (by decide) (by decide) (by decide) (by decide) (by decide),
   C5_eta_parsing.2.2.2 "1:2:3:4".data (by decide) (by decide)⟩

theorem tracker_update_fields (t : MultiPassProgressTracker) (raw : ℚ) :
    (t.update (some raw)).1.num_passes = t.num_passes
    ∧ (t.update (some raw)).1.current_pass_progress = raw
    ∧ (t.update (some raw)).1.completed_passes
        = (if t.isBoundary raw = true then min (t.completed_passes + 1) (t.num_passes - 1)
           else t.completed_passes)
    ∧ (t.update (some raw)).1.seen_high_progress
        = (if t.isBoundary raw = true then decide ((1:ℚ)/2 < raw)
           else (t.seen_high_progress || decide ((1:ℚ)/2 < raw)))
    ∧ (t.update (some raw)).2 = (t.update (some raw)).1.get_overall_progress := by
  by_cases hb : t.isBoundary raw = true <;> by_cases hr : (1:ℚ)/2 < raw <;>
    rw [one_div] at hr <;>
    simp [MultiPassProgressTracker.update, hb, hr, one_div]

theorem isBoundary_low {t : MultiPassProgressTracker} {raw : ℚ}
    (h : t.isBoundary raw = true) :
    t.seen_high_progress = true ∧ raw < 1/5 ∧ 4/5 < t.last_raw_progress := by
  simp only [MultiPassProgressTracker.isBoundary, Bool.and_eq_true, decide_eq_true_eq] at h
  exact ⟨h.1.1, h.1.2, h.2⟩

/-- Claim C1: multi-pass progress tracking.  An update increments
completed_passes (capped at N-1) and resets the seen-high flag exactly when a
high reading was seen in the current pass, the new reading is below 0.2 and
the previous one above 0.8; every update returns
min(0.99, (completed_passes + current reading)/N); for N = 2 the raw sequence
[0.1, 0.5, 0.9, 0.1, 0.5, 0.9] fires the boundary test exactly once. -/
theorem C1_multipass_tracker :
    (∀ n, trackerInv (MultiPassProgressTracker.init n))
    ∧ (∀ (t : MultiPassProgressTracker) (raw : ℚ), trackerInv t →
        trackerInv (t.update (some raw)).1)
    ∧ (∀ (t : MultiPassProgressTracker) (raw : ℚ), t.isBoundary raw = true →
        (t.update (some raw)).1.completed_passes
            = min (t.completed_passes + 1) (t.num_passes - 1)
        ∧ (t.update (some raw)).1.seen_high_progress = false)
    ∧ (∀ (t : MultiPassProgressTracker) (raw : ℚ), t.isBoundary raw = false →
        (t.update (some raw)).1.completed_passes = t.completed_passes
        ∧ (t.update (some raw)).1.seen_high_progress
            = (t.seen_high_progress || decide ((1:ℚ)/2 < raw)))
    ∧ (∀ (t : MultiPassProgressTracker) (raw : ℚ), trackerInv t →
        (t.update (some raw)).2
          = min (99/100 : ℚ)
              ((((t.update (some raw)).1.completed_passes : ℚ) + raw) / (t.num_passes : ℚ)))
    ∧ countBoundaries (MultiPassProgressTracker.init 2)
        [1/10, 1/2, 9/10, 1/10, 1/2, 9/10] = 1 := by
  refine ⟨?_, ?_, ?_, ?_, ?_, by
    norm_num [countBoundaries, MultiPassProgressTracker.init, MultiPassProgressTracker.update,
      MultiPassProgressTracker.isBoundary]⟩
  · intro n
    constructor
    · exact le_max_left 1 n
    · exact Nat.zero_le _
  · intro t raw hinv
    obtain ⟨hn, hc⟩ := hinv
    obtain ⟨hnum, _, hcomp, _, _⟩ := tracker_update_fields t raw
    constructor
    · rw [hnum]; exact hn
    · rw [hnum, hcomp]
      by_cases hb : t.isBoundary raw = true
      · rw [if_pos hb]; exact min_le_right _ _
      · rw [if_neg hb]; exact hc
  · intro t raw hb
    obtain ⟨_, _, hcomp, hseen, _⟩ := tracker_update_fields t raw
    obtain ⟨_, hlow, _⟩ := isBoundary_low hb
    refine ⟨by rw [hcomp, if_pos hb], ?_⟩
    rw [hseen, if_pos hb, decide_eq_false]
    intro hcon
    linarith
  · intro t raw hb
    have hb2 : ¬ t.isBoundary raw = true := by rw [hb]; exact Bool.false_ne_true
    obtain ⟨_, _, hcomp, hseen, _⟩ := tracker_update_fields t raw
    exact ⟨by rw [hcomp, if_neg hb2], by rw [hseen, if_neg hb2]⟩
  · intro t raw hinv
    obtain ⟨hn, hc⟩ := hinv
    obtain ⟨hnum, hcur, hcomp, _, hsnd⟩ := tracker_update_fields t raw
    rw [hsnd]
    unfold MultiPassProgressTracker.get_overall_progress
    rw [hnum, hcur]
    by_cases h1 : t.num_passes ≤ 1
    · have hn1 : t.num_passes = 1 := le_antisymm h1 hn
      have hc0 : (t.update (some raw)).1.completed_passes = 0 := by
        rw [hcomp]
        by_cases hb : t.isBoundary raw = true
        · rw [if_pos hb, hn1]
          simp
        · rw [if_neg hb]
          omega
      rw [if_pos h1, hc0, hn1]
      norm_num
    · rw [if_neg h1]

/-- Witness for C1 at a concrete tracker state and reading. -/
theorem C1_multipass_tracker_witness :
    trackerInv (MultiPassProgressTracker.init 2)
    ∧ trackerInv ((MultiPassProgressTracker.init 2).update (some (9/10))).1
    ∧ ((MultiPassProgressTracker.init 2).update (some (9/10))).2
        = min (99/100 : ℚ)
            (((((MultiPassProgressTracker.init 2).update (some (9/10))).1.completed_passes : ℚ)
              + 9/10) / ((MultiPassProgressTracker.init 2).num_passes : ℚ)) :=
  ⟨C1_multipass_tracker.1 2,
   C1_multipass_tracker.2.1 (MultiPassProgressTracker.init 2) (9/10) (C1_multipass_tracker.1 2),
   C1_multipass_tracker.2.2.2.2.1 (MultiPassProgressTracker.init 2) (9/10)
     (C1_multipass_tracker.1 2)⟩

theorem driverStep_mono (n : ℕ) (st : DriverState) (line : List Char)
    (h : st.item_progress ≤ st.last_progress) :
    (driverStep n st line).item_progress ≤ (driverStep n st line).last_progress
    ∧ st.item_progress ≤ (driverStep n st line).item_progress
    ∧ st.last_progress ≤ (driverStep n st line).last_progress := by
  rcases hp : parse_demucs_progress line with ⟨raw, eta⟩
  cases raw with
  | none =>
    simp only [driverStep, hp]
    exact ⟨h, le_refl _, le_refl _⟩
  | some r =>
    rcases hu : st.tracker.update (some r) with ⟨tr, ov⟩
    by_cases hlt : st.last_progress < ov
    · simp only [driverStep, hp, hu, if_pos hlt]
      exact ⟨le_refl _, le_trans h (le_of_lt hlt), le_of_lt hlt⟩
    · simp only [driverStep, hp, hu, if_neg hlt]
      exact ⟨h, le_refl _, le_refl _⟩

theorem driverRun_mono (n : ℕ) :
    ∀ (lines : List (List Char)) (st : DriverState),
      st.item_progress ≤ st.last_progress →
      (st.item_progress ≤ (driverRun n st lines).item_progress
       ∧ (driverRun n st lines).item_progress ≤ (driverRun n st lines).last_progress)
  | [], st, h => ⟨le_refl _, h⟩
  | line :: rest, st, h => by
    obtain ⟨h1, h2, _⟩ := driverStep_mono n st line h
    obtain ⟨h4, h5⟩ := driverRun_mono n rest (driverStep n st line) h1
    exact ⟨le_trans h2 h4, h5⟩

/-- Claim C2: the progress-application gate of the subprocess driver.  For
every sequence of output lines, the job record's stored separation fraction
is non-decreasing; when a line yields an overall fraction, it is written to
the record (and becomes the last applied value) exactly when it strictly
exceeds the last applied value; otherwise the record keeps its fraction. -/
theorem C2_monotone_progress_gate :
    (∀ (n : ℕ) (st : DriverState) (line : List Char),
        st.item_progress ≤ st.last_progress →
        ((driverStep n st line).item_progress ≤ (driverStep n st line).last_progress
         ∧ st.item_progress ≤ (driverStep n st line).item_progress
         ∧ (driverComputed st line = none →
              (driverStep n st line).item_progress = st.item_progress
              ∧ (driverStep n st line).last_progress = st.last_progress)
         ∧ (∀ o, driverComputed st line = some o →
              (st.last_progress < o →
                (driverStep n st line).item_progress = o
                ∧ (driverStep n st line).last_progress = o)
              ∧ (¬ st.last_progress < o →
                (driverStep n st line).item_progress = st.item_progress
                ∧ (driverStep n st line).last_progress = st.last_progress))))
    ∧ (∀ (n : ℕ) (st : DriverState) (lines : List (List Char)),
        st.item_progress ≤ st.last_progress →
        st.item_progress ≤ (driverRun n st lines).item_progress
        ∧ (driverRun n st lines).item_progress
            ≤ (driverRun n st lines).last_progress) := by
  constructor
  · intro n st line h
    obtain ⟨h1, h2, _⟩ := driverStep_mono n st line h
    refine ⟨h1, h2, ?_, ?_⟩
    · intro hc
      rcases hp : parse_demucs_progress line with ⟨raw, eta⟩
      cases raw with
      | none => simp [driverStep, hp]
      | some r =>
        exfalso
        rw [driverComputed, hp] at hc
        simp at hc
    · intro o hc
      rcases hp : parse_demucs_progress line with ⟨raw, eta⟩
      rw [driverComputed, hp] at hc
      cases raw with
      | none => simp at hc
      | some r =>
        rcases hu : st.tracker.update (some r) with ⟨tr, ov⟩
        simp only [hu] at hc
        have hov : ov = o := by
          have := hc
          simp at this
          exact this
        subst hov
        constructor
        · intro hlt
          simp [driverStep, hp, hu, if_pos hlt]
        · intro hlt
          simp [driverStep, hp, hu, if_neg hlt]
  · intro n st lines h
    exact driverRun_mono n lines st h

/-- Witness for C2 at the initial driver state and a concrete line list. -/
theorem C2_monotone_progress_gate_witness :
    (DriverState.init 1).item_progress ≤ (DriverState.init 1).last_progress
    ∧ (DriverState.init 1).item_progress
        ≤ (driverRun 1 (DriverState.init 1) ["10%|".data, "5%|".data, "50%|".data]).item_progress :=
  ⟨le_refl _,
   (C2_monotone_progress_gate.2 1 (DriverState.init 1)
      ["10%|".data, "5%|".data, "50%|".data] (le_refl _)).1⟩

/-- Claim C8: active-count non-negativity.  Starting from any non-negative
value (in particular 0), every sequence of increment/decrement calls keeps
the stored count non-negative, and a decrement at 0 leaves it at 0. -/
theorem C8_active_count_nonneg :
    (∀ (a : ℤ) (ops : List ActiveOp), 0 ≤ a → 0 ≤ runActive a ops)
    ∧ (∀ a : ℤ, 0 ≤ a → 0 ≤ increment_active a ∧ 0 ≤ decrement_active a)
    ∧ decrement_active 0 = 0 := by
  refine ⟨?_, ?_, by decide⟩
  · intro a ops
    induction ops generalizing a with
    | nil =>
      intro h
      simpa [runActive] using h
    | cons op rest ih =>
      intro h
      have hstep : 0 ≤ applyActive a op := by
        cases op with
        | inc => simp only [applyActive, increment_active]; omega
        | dec => exact le_max_left _ _
      have h2 := ih (applyActive a op) hstep
      simpa [runActive, List.foldl_cons] using h2
  · intro a h
    constructor
    · simp only [increment_active]; omega
    · exact le_max_left _ _

/-- Witness for C8 at a concrete operation sequence with more decrements
than increments. -/
theorem C8_active_count_nonneg_witness :
    (0:ℤ) ≤ 0 ∧ 0 ≤ runActive 0 [ActiveOp.inc, ActiveOp.dec, ActiveOp.dec, ActiveOp.dec] :=
  ⟨le_refl 0,
   C8_active_count_nonneg.1 0 [ActiveOp.inc, ActiveOp.dec, ActiveOp.dec, ActiveOp.dec]
     (le_refl 0)⟩

theorem workerDrainOp_get? (s : SysState) (i : ℕ) :
    (workerDrainOp s).jobs.get? i = (s.jobs.get? i).map
      (fun j => if j.inQueue && j.status == Status.queued
                then { j with status := Status.canceled } else j) := by
  simp [workerDrainOp, List.get?_map]

theorem applyOp_running (s : SysState) (op : Op) (h : s.running = true) :
    op = Op.workerExit ∨ (applyOp s op).running = true := by
  cases op with
  | workerExit => exact Or.inl rfl
  | enqueue newId => exact Or.inr (by simpa [applyOp, enqueueOp] using h)
  | apiStart =>
    right
    simp [applyOp, apiStartOp, h]
  | apiStop => exact Or.inr (by simpa [applyOp, apiStopOp] using h)
  | apiCancel jid => exact Or.inr (by simpa [applyOp, api_cancel] using h)
  | apiClear => exact Or.inr (by simp [applyOp, apiClearOp, h])
  | setConcurrency n => exact Or.inr (by simpa [applyOp, setConcOp] using h)
  | workerAdmit => exact Or.inr (by simpa [applyOp, workerAdmitOp] using h)
  | workerDrain => exact Or.inr (by simpa [applyOp, workerDrainOp] using h)
  | finish i o =>
    right
    simp only [applyOp, finishOp]
    rcases hj : s.jobs.get? i with _ | j
    · exact h
    · by_cases ht : j.hasThread = true
      · simp [ht, h]
      · simp [ht, h]

/-- Claim C3: scheduler cancellation drain and running-flag ownership.  With
the stop signal set at the top of an iteration, the loop cancels every queued
job of the queue, changes nothing else, admits nothing, and exits; the
worker's finally clause clears the running flag on every exit path; the
worker exit is the only operation that flips the running flag to false; with
3 queued jobs and stop triggered before any admission, all 3 end canceled,
the active count stays 0 and the flag ends false. -/
theorem C3_cancellation_drain :
    (∀ (s : SysState) (fuel : ℕ), s.stopSet = true →
        workerLoop (fuel + 1) s = workerDrainOp s)
    ∧ (∀ (s : SysState) (i : ℕ) (j : Job), s.jobs.get? i = some j →
        j.inQueue = true → j.status = Status.queued →
        (workerDrainOp s).jobs.get? i = some { j with status := Status.canceled })
    ∧ (∀ (s : SysState) (i : ℕ) (j : Job), s.jobs.get? i = some j →
        j.status ≠ Status.queued → (workerDrainOp s).jobs.get? i = some j)
    ∧ (∀ s : SysState, (workerDrainOp s).active = s.active
        ∧ (workerDrainOp s).running = s.running)
    ∧ (∀ (s : SysState) (i : ℕ) (j j2 : Job), s.jobs.get? i = some j →
        (workerDrainOp s).jobs.get? i = some j2 →
        j2.status = Status.running → j.status = Status.running)
    ∧ (∀ (fuel : ℕ) (s : SysState), (download_worker fuel s).running = false)
    ∧ (∀ (s : SysState) (op : Op), s.running = true →
        (applyOp s op).running = false → op = Op.workerExit)
    ∧ ((workerExitOp (workerLoop 5 (apiStopOp exState3))).jobs.map Job.status
          = [Status.canceled, Status.canceled, Status.canceled]
       ∧ (workerExitOp (workerLoop 5 (apiStopOp exState3))).active = 0
       ∧ (workerExitOp (workerLoop 5 (apiStopOp exState3))).running = false) := by
  refine ⟨?_, ?_, ?_, fun s => ⟨rfl, rfl⟩, ?_, fun fuel s => rfl, ?_, by decide⟩
  · intro s fuel h
    simp [workerLoop, workerLoopIter, h]
  · intro s i j hj hin hq
    rw [workerDrainOp_get?, hj]
    simp [hin, hq]
  · intro s i j hj hq
    have hc : (j.inQueue && j.status == Status.queued) = false := by
      simp [beq_eq_false_iff_ne.mpr hq]
    rw [workerDrainOp_get?, hj]
    simp only [Option.map_some']
    rw [if_neg (by simp [hc])]
  · intro s i j j2 hj hj2 hrun
    rw [workerDrainOp_get?, hj] at hj2
    simp only [Option.map_some'] at hj2
    by_cases hc : (j.inQueue && j.status == Status.queued) = true
    · rw [if_pos hc] at hj2
      injection hj2 with hj2
      rw [← hj2] at hrun
      simp at hrun
    · rw [if_neg hc] at hj2
      injection hj2 with hj2
      rw [hj2]
      exact hrun
  · intro s op hrun hfalse
    rcases applyOp_running s op hrun with h | h
    · exact h
    · rw [h] at hfalse
      exact absurd hfalse (by decide)

/-- Witness for C3: the drain equations and flag ownership at a concrete
3-job state. -/
theorem C3_cancellation_drain_witness :
    (apiStopOp exState3).stopSet = true
    ∧ workerLoop 1 (apiStopOp exState3) = workerDrainOp (apiStopOp exState3)
    ∧ exState3.running = true
    ∧ Op.workerExit = Op.workerExit := by
  refine ⟨by decide, ?_, by decide, ?_⟩
  · exact C3_cancellation_drain.1 (apiStopOp exState3) 0 (by decide)
  · exact C3_cancellation_drain.2.2.2.2.2.2.1 exState3 Op.workerExit (by decide) (by decide)

theorem allowedStatusStep_refl (a : Status) : allowedStatusStep a a := Or.inl rfl

theorem allowedStatusStep_terminal {a b : Status} (h : allowedStatusStep a b)
    (ht : a.isTerminal = true) : b = a := by
  rcases h with he | ⟨ha, _⟩ | ⟨ha, _⟩
  · exact he.symm
  · rw [ha] at ht
    exact absurd ht (by decide)
  · rw [ha] at ht
    exact absurd ht (by decide)

theorem bool_and_left {a b : Bool} (h : (a && b) = true) : a = true := by
  cases a
  · simp at h
  · rfl

theorem bool_and_right {a b : Bool} (h : (a && b) = true) : b = true := by
  cases b
  · simp at h
  · rfl

theorem mapCancel_inv_step (js : List Job)
    (hinv : ∀ j ∈ js, j.hasThread = true → j.status = Status.running) :
    (∀ j2 ∈ js.map (fun j => if j.inQueue && j.status == Status.queued
        then { j with status := Status.canceled } else j),
        j2.hasThread = true → j2.status = Status.running)
    ∧ (∀ (i : ℕ) (a b : Job), js.get? i = some a →
        (js.map (fun j => if j.inQueue && j.status == Status.queued
          then { j with status := Status.canceled } else j)).get? i = some b →
        allowedStatusStep a.status b.status) := by
  constructor
  · intro j2 hj2 ht
    rcases List.mem_map.mp hj2 with ⟨j, hj, he⟩
    by_cases hc : (j.inQueue && j.status == Status.queued) = true
    · rw [if_pos hc] at he
      rw [← he] at ht
      have hr := hinv j hj ht
      have hq := bool_and_right hc
      rw [hr] at hq
      exact absurd hq (by decide)
    · rw [if_neg hc] at he
      rw [← he] at ht ⊢
      exact hinv j hj ht
  · intro i a b ha hb
    rw [List.get?_map, ha] at hb
    simp only [Option.map_some'] at hb
    injection hb with hb
    by_cases hc : (a.inQueue && a.status == Status.queued) = true
    · rw [if_pos hc] at hb
      rw [← hb]
      exact Or.inr (Or.inl ⟨beq_iff_eq.mp (bool_and_right hc), Or.inr rfl⟩)
    · rw [if_neg hc] at hb
      rw [← hb]
      exact allowedStatusStep_refl _

theorem map_preserve_step (f : Job → Job)
    (hstat : ∀ j, (f j).status = j.status) (hth : ∀ j, (f j).hasThread = j.hasThread)
    (js : List Job) (hinv : ∀ j ∈ js, j.hasThread = true → j.status = Status.running) :
    (∀ j2 ∈ js.map f, j2.hasThread = true → j2.status = Status.running)
    ∧ (∀ (i : ℕ) (a b : Job), js.get? i = some a → (js.map f).get? i = some b →
        allowedStatusStep a.status b.status) := by
  constructor
  · intro j2 hj2 ht
    rcases List.mem_map.mp hj2 with ⟨j, hj, he⟩
    rw [← he] at ht ⊢
    rw [hth] at ht
    rw [hstat]
    exact hinv j hj ht
  · intro i a b ha hb
    rw [List.get?_map, ha] at hb
    simp only [Option.map_some'] at hb
    injection hb with hb
    rw [← hb, hstat]
    exact allowedStatusStep_refl _

theorem admitList_cons_true {k : ℤ} {j : Job} {rest : List Job}
    (hc : (decide (0 < k) && j.inQueue && j.status == Status.queued) = true) :
    (admitList k (j :: rest)).1 = startJob j :: (admitList (k - 1) rest).1 := by
  rcases h2 : admitList (k - 1) rest with ⟨js2, c⟩
  simp [admitList, hc, h2]

theorem admitList_cons_false {k : ℤ} {j : Job} {rest : List Job}
    (hc : ¬ (decide (0 < k) && j.inQueue && j.status == Status.queued) = true) :
    (admitList k (j :: rest)).1 = j :: (admitList k rest).1 := by
  rcases h2 : admitList k rest with ⟨js2, c⟩
  simp [admitList, hc, h2]

theorem admitList_get? (k : ℤ) (js : List Job) (i : ℕ) :
    ((admitList k js).1.get? i = js.get? i)
    ∨ (∃ j, js.get? i = some j ∧ j.inQueue = true ∧ j.status = Status.queued
        ∧ (admitList k js).1.get? i = some (startJob j)) := by
  induction js generalizing k i with
  | nil => left; simp [admitList]
  | cons j rest ih =>
    by_cases hc : (decide (0 < k) && j.inQueue && j.status == Status.queued) = true
    · have h1 := @admitList_cons_true k j rest hc
      cases i with
      | zero =>
        right
        refine ⟨j, rfl, ?_, ?_, ?_⟩
        · exact bool_and_right (bool_and_left hc)
        · exact beq_iff_eq.mp (bool_and_right hc)
        · rw [h1]; rfl
      | succ i2 =>
        rcases ih (k - 1) i2 with h | ⟨j2, hj2, hin, hq, hres⟩
        · left
          rw [h1, List.get?_cons_succ, List.get?_cons_succ, h]
        · right
          exact ⟨j2, by rw [List.get?_cons_succ]; exact hj2, hin, hq,
            by rw [h1, List.get?_cons_succ]; exact hres⟩
    · have h1 := @admitList_cons_false k j rest hc
      cases i with
      | zero => left; rw [h1]; rfl
      | succ i2 =>
        rcases ih k i2 with h | ⟨j2, hj2, hin, hq, hres⟩
        · left
          rw [h1, List.get?_cons_succ, List.get?_cons_succ, h]
        · right
          exact ⟨j2, by rw [List.get?_cons_succ]; exact hj2, hin, hq,
            by rw [h1, List.get?_cons_succ]; exact hres⟩

theorem admitList_mem (k : ℤ) (js : List Job) :
    ∀ j2 ∈ (admitList k js).1, j2 ∈ js ∨ ∃ j ∈ js, j2 = startJob j := by
  induction js generalizing k with
  | nil =>
    intro j2 h
    simp [admitList] at h
  | cons j rest ih =>
    intro j2 h
    by_cases hc : (decide (0 < k) && j.inQueue && j.status == Status.queued) = true
    · rw [@admitList_cons_true k j rest hc] at h
      rcases List.mem_cons.mp h with he | h2
      · right
        exact ⟨j, List.mem_cons_self _ _, he⟩
      · rcases ih (k - 1) j2 h2 with h3 | ⟨j3, hj3, he⟩
        · left; exact List.mem_cons_of_mem _ h3
        · right; exact ⟨j3, List.mem_cons_of_mem _ hj3, he⟩
    · rw [@admitList_cons_false k j rest hc] at h
      rcases List.mem_cons.mp h with he | h2
      · left; rw [he]; exact List.mem_cons_self _ _
      · rcases ih k j2 h2 with h3 | ⟨j3, hj3, he⟩
        · left; exact List.mem_cons_of_mem _ h3
        · right; exact ⟨j3, List.mem_cons_of_mem _ hj3, he⟩

theorem workerAdmitOp_jobs (s : SysState) :
    (workerAdmitOp s).jobs = (admitList (max 0 (s.maxConc - s.active)) s.jobs).1 := by
  rcases h : admitList (max 0 (s.maxConc - s.active)) s.jobs with ⟨js, c⟩
  simp [workerAdmitOp, h]

theorem get?_set_cases (js : List Job) (iset iread : ℕ) (jnew : Job) :
    (js.set iset jnew).get? iread = js.get? iread
    ∨ (iread = iset ∧ iset < js.length ∧ (js.set iset jnew).get? iread = some jnew) := by
  by_cases he : iread = iset
  · subst he
    by_cases hlt : iread < js.length
    · right
      exact ⟨rfl, hlt, List.get?_set_eq_of_lt _ hlt⟩
    · left
      have h1 : js.get? iread = none := List.get?_eq_none.mpr (le_of_not_lt hlt)
      have h2 : (js.set iread jnew).get? iread = none := by
        apply List.get?_eq_none.mpr
        rw [List.length_set]
        exact le_of_not_lt hlt
      rw [h1, h2]
  · left
    exact List.get?_set_ne _ _ (fun hh => he hh.symm)

theorem cancelInList_cases (jid : ℕ) (js : List Job) :
    (cancelInList jid js).1 = js
    ∨ ∃ i j, js.get? i = some j ∧ j.status = Status.queued
        ∧ (cancelInList jid js).1 = js.set i { j with status := Status.canceled } := by
  rcases hf : findQueueIdx jid js with _ | i
  · left
    simp only [cancelInList, hf]
  · rcases hj : js.get? i with _ | j
    · left
      simp only [cancelInList, hf, hj]
    · by_cases hq : j.status = Status.queued
      · right
        refine ⟨i, j, hj, hq, ?_⟩
        simp only [cancelInList, hf, hj, if_pos hq]
      · left
        simp only [cancelInList, hf, hj, if_neg hq]

theorem get?_some_lt {js : List Job} {i : ℕ} {j : Job} (h : js.get? i = some j) :
    i < js.length := by
  by_contra hc
  rw [List.get?_eq_none.mpr (le_of_not_lt hc)] at h
  cases h

/-- Claim C6: job status state machine.  Every operation preserves the
thread/running invariant, every status change it performs follows
queued to running/canceled or running to done/error/canceled, and no
operation changes the status of a job already in a terminal state. -/
theorem C6_status_machine :
    ∀ (s : SysState) (op : Op), threadInv s →
      threadInv (applyOp s op)
      ∧ (∀ (i : ℕ) (a b : Job), s.jobs.get? i = some a →
           (applyOp s op).jobs.get? i = some b → allowedStatusStep a.status b.status)
      ∧ (∀ (i : ℕ) (a b : Job), s.jobs.get? i = some a →
           (applyOp s op).jobs.get? i = some b → a.status.isTerminal = true →
           b.status = a.status) := by
  intro s op hinv
  have hinv2 : ∀ j ∈ s.jobs, j.hasThread = true → j.status = Status.running := hinv
  suffices main : threadInv (applyOp s op)
      ∧ (∀ (i : ℕ) (a b : Job), s.jobs.get? i = some a →
           (applyOp s op).jobs.get? i = some b → allowedStatusStep a.status b.status) by
    exact ⟨main.1, main.2,
      fun i a b ha hb ht => allowedStatusStep_terminal (main.2 i a b ha hb) ht⟩
  cases op with
  | enqueue newId =>
    constructor
    · intro j hj ht
      simp only [applyOp, enqueueOp] at hj
      rcases List.mem_append.mp hj with h | h
      · exact hinv2 j h ht
      · rw [List.mem_singleton.mp h] at ht
        simp [freshJob] at ht
    · intro i a b ha hb
      have hlt : i < s.jobs.length := get?_some_lt ha
      simp only [applyOp, enqueueOp] at hb
      rw [List.get?_append hlt, ha] at hb
      injection hb with hb
      rw [← hb]
      exact allowedStatusStep_refl _
  | apiStart =>
    have hjobs : (applyOp s Op.apiStart).jobs = s.jobs := by
      simp only [applyOp, apiStartOp]
      by_cases h : s.running = true
      · rw [if_pos h]
      · rw [if_neg h]
    constructor
    · intro j hj ht
      rw [hjobs] at hj
      exact hinv2 j hj ht
    · intro i a b ha hb
      rw [hjobs, ha] at hb
      injection hb with hb
      rw [← hb]
      exact allowedStatusStep_refl _
  | setConcurrency n =>
    constructor
    · intro j hj ht
      exact hinv2 j hj ht
    · intro i a b ha hb
      rw [show (applyOp s (Op.setConcurrency n)).jobs = s.jobs from rfl, ha] at hb
      injection hb with hb
      rw [← hb]
      exact allowedStatusStep_refl _
  | workerExit =>
    constructor
    · intro j hj ht
      exact hinv2 j hj ht
    · intro i a b ha hb
      rw [show (applyOp s Op.workerExit).jobs = s.jobs from rfl, ha] at hb
      injection hb with hb
      rw [← hb]
      exact allowedStatusStep_refl _
  | apiStop =>
    have h := mapCancel_inv_step s.jobs hinv2
    exact ⟨fun j hj ht => h.1 j hj ht, fun i a b ha hb => h.2 i a b ha hb⟩
  | workerDrain =>
    have h := mapCancel_inv_step s.jobs hinv2
    exact ⟨fun j hj ht => h.1 j hj ht, fun i a b ha hb => h.2 i a b ha hb⟩
  | apiClear =>
    by_cases hr : s.running = true
    · have hjobs : (applyOp s Op.apiClear).jobs
          = s.jobs.map (fun j => { j with inQueue := j.inQueue && j.status == Status.running }) := by
        simp only [applyOp, apiClearOp, if_pos hr]
        rfl
      have h := map_preserve_step
        (fun j => { j with inQueue := j.inQueue && j.status == Status.running })
        (fun j => rfl) (fun j => rfl) s.jobs hinv2
      constructor
      · intro j hj ht
        rw [hjobs] at hj
        exact h.1 j hj ht
      · intro i a b ha hb
        rw [hjobs] at hb
        exact h.2 i a b ha hb
    · have hjobs : (applyOp s Op.apiClear).jobs
          = s.jobs.map (fun j => { j with inQueue := false }) := by
        simp only [applyOp, apiClearOp, if_neg hr]
        rfl
      have h := map_preserve_step (fun j => { j with inQueue := false })
        (fun j => rfl) (fun j => rfl) s.jobs hinv2
      constructor
      · intro j hj ht
        rw [hjobs] at hj
        exact h.1 j hj ht
      · intro i a b ha hb
        rw [hjobs] at hb
        exact h.2 i a b ha hb
  | workerAdmit =>
    have hjobs : (applyOp s Op.workerAdmit).jobs
        = (admitList (max 0 (s.maxConc - s.active)) s.jobs).1 := workerAdmitOp_jobs s
    constructor
    · intro j2 hj2 ht
      rw [hjobs] at hj2
      rcases admitList_mem _ _ j2 hj2 with h | ⟨j, _, he⟩
      · exact hinv2 j2 h ht
      · rw [he]
        rfl
    · intro i a b ha hb
      rw [hjobs] at hb
      rcases admitList_get? (max 0 (s.maxConc - s.active)) s.jobs i
        with h | ⟨j, hj, _, hq, hres⟩
      · rw [h, ha] at hb
        injection hb with hb
        rw [← hb]
        exact allowedStatusStep_refl _
      · rw [hres] at hb
        injection hb with hb
        rw [hj] at ha
        injection ha with ha
        subst ha
        rw [← hb]
        exact Or.inr (Or.inl ⟨hq, Or.inl rfl⟩)
  | apiCancel jid =>
    have hjobs : (applyOp s (Op.apiCancel jid)).jobs = (cancelInList jid s.jobs).1 := by
      rcases h : cancelInList jid s.jobs with ⟨js, r⟩
      simp [applyOp, api_cancel, h]
    rcases cancelInList_cases jid s.jobs with hcase | ⟨i2, j, hj, hq, hset⟩
    · constructor
      · intro j2 hj2 ht
        rw [hjobs, hcase] at hj2
        exact hinv2 j2 hj2 ht
      · intro i a b ha hb
        rw [hjobs, hcase, ha] at hb
        injection hb with hb
        rw [← hb]
        exact allowedStatusStep_refl _
    · have hthf : j.hasThread = false := by
        cases hth : j.hasThread
        · rfl
        · have hr := hinv2 j (List.get?_mem hj) hth
          rw [hr] at hq
          exact absurd hq (by decide)
      constructor
      · intro j2 hj2 ht
        rw [hjobs, hset] at hj2
        rcases List.mem_or_eq_of_mem_set hj2 with h | he
        · exact hinv2 j2 h ht
        · rw [he] at ht
          rw [show ({ j with status := Status.canceled } : Job).hasThread
              = j.hasThread from rfl, hthf] at ht
          exact absurd ht (by decide)
      · intro i a b ha hb
        rw [hjobs, hset] at hb
        rcases get?_set_cases s.jobs i2 i { j with status := Status.canceled }
          with h | ⟨heq, _, hsetg⟩
        · rw [h, ha] at hb
          injection hb with hb
          rw [← hb]
          exact allowedStatusStep_refl _
        · subst heq
          rw [hsetg] at hb
          injection hb with hb
          rw [hj] at ha
          injection ha with ha
          subst ha
          rw [← hb]
          exact Or.inr (Or.inl ⟨hq, Or.inr rfl⟩)
  | finish i2 o =>
    rcases hj : s.jobs.get? i2 with _ | j
    · have hs : applyOp s (Op.finish i2 o) = s := by
        simp only [applyOp, finishOp, hj]
      rw [hs]
      exact ⟨hinv, fun i a b ha hb => by
        rw [ha] at hb
        injection hb with hb
        rw [← hb]
        exact allowedStatusStep_refl _⟩
    · by_cases hth : j.hasThread = true
      · have hrun : j.status = Status.running := hinv2 j (List.get?_mem hj) hth
        have hs : applyOp s (Op.finish i2 o)
            = { s with jobs := s.jobs.set i2 (endJob j o),
                       active := decrement_active s.active } := by
          simp only [applyOp, finishOp, hj, if_pos hth]
        rw [hs]
        constructor
        · intro j2 hj2 ht2
          rcases List.mem_or_eq_of_mem_set hj2 with h | he
          · exact hinv2 j2 h ht2
          · rw [he] at ht2
            exfalso
            cases o <;> simp [endJob] at ht2
        · intro i a b ha hb
          have hb2 : (s.jobs.set i2 (endJob j o)).get? i = some b := hb
          rcases get?_set_cases s.jobs i2 i (endJob j o) with h | ⟨heq, _, hsetg⟩
          · rw [h, ha] at hb2
            injection hb2 with hb2
            rw [← hb2]
            exact allowedStatusStep_refl _
          · subst heq
            rw [hsetg] at hb2
            injection hb2 with hb2
            rw [hj] at ha
            injection ha with ha
            subst ha
            rw [← hb2]
            refine Or.inr (Or.inr ⟨hrun, ?_⟩)
            cases o with
            | fdone dest => exact Or.inl rfl
            | ffail msg => exact Or.inr (Or.inl rfl)
            | fcanceled => exact Or.inr (Or.inr rfl)
      · have hs : applyOp s (Op.finish i2 o) = s := by
          simp only [applyOp, finishOp, hj, if_neg hth]
        rw [hs]
        exact ⟨hinv, fun i a b ha hb => by
          rw [ha] at hb
          injection hb with hb
          rw [← hb]
          exact allowedStatusStep_refl _⟩

/-- Witness for C6: the state machine applied to the stop operation on the
concrete 3-job state. -/
theorem C6_status_machine_witness :
    threadInv exState3
    ∧ allowedStatusStep Status.queued
        (((applyOp exState3 Op.apiStop).jobs.get? 0).getD (freshJob 0)).status := by
  have hinv : threadInv exState3 := by
    intro j hj ht
    simp [exState3, freshJob] at hj
    rcases hj with h | h | h <;> rw [h] at ht <;> simp [freshJob] at ht
  refine ⟨hinv, ?_⟩
  have h := (C6_status_machine exState3 Op.apiStop hinv).2.1 0 (freshJob 0)
    (((applyOp exState3 Op.apiStop).jobs.get? 0).getD (freshJob 0)) (by decide) (by decide)
  exact h

theorem api_cancel_eq (jid : ℕ) (s : SysState) :
    (api_cancel jid s).1 = { s with jobs := (cancelInList jid s.jobs).1 }
    ∧ (api_cancel jid s).2 = (cancelInList jid s.jobs).2 := by
  rcases h : cancelInList jid s.jobs with ⟨js, r⟩
  simp [api_cancel, h]

theorem findQueueIdx_none_iff (jid : ℕ) :
    ∀ js : List Job, findQueueIdx jid js = none
      ↔ ∀ j ∈ js, ¬(j.inQueue = true ∧ j.jid = jid)
  | [] => by simp [findQueueIdx]
  | x :: rest => by
    by_cases hx : (x.inQueue && x.jid == jid) = true
    · simp only [findQueueIdx, hx, if_true]
      constructor
      · intro h; cases h
      · intro h
        exact absurd ⟨bool_and_left hx, beq_iff_eq.mp (bool_and_right hx)⟩
          (h x (List.mem_cons_self _ _))
    · rw [Bool.not_eq_true] at hx
      simp only [findQueueIdx, hx, Bool.false_eq_true, if_false, Option.map_eq_none']
      rw [findQueueIdx_none_iff jid rest]
      constructor
      · intro h j hj
        rcases List.mem_cons.mp hj with he | h2
        · intro ⟨h1, h2⟩
          rw [he] at h1 h2
          rw [h1, beq_iff_eq.mpr h2] at hx
          exact absurd hx (by decide)
        · exact h j h2
      · intro h j hj
        exact h j (List.mem_cons_of_mem _ hj)

theorem findQueueIdx_some (jid : ℕ) :
    ∀ (js : List Job) (i : ℕ), findQueueIdx jid js = some i →
      ∃ j, js.get? i = some j ∧ j.inQueue = true ∧ j.jid = jid
  | [], i, h => by simp [findQueueIdx] at h
  | x :: rest, i, h => by
    by_cases hx : (x.inQueue && x.jid == jid) = true
    · simp only [findQueueIdx, hx, if_true] at h
      injection h with h
      subst h
      exact ⟨x, rfl, bool_and_left hx, beq_iff_eq.mp (bool_and_right hx)⟩
    · rw [Bool.not_eq_true] at hx
      simp only [findQueueIdx, hx, Bool.false_eq_true, if_false] at h
      rcases ho : findQueueIdx jid rest with _ | i2
      · rw [ho] at h
        cases h
      · rw [ho] at h
        simp only [Option.map_some'] at h
        injection h with h
        obtain ⟨j, hj, hin, hjid⟩ := findQueueIdx_some jid rest i2 ho
        subst h
        exact ⟨j, by rw [List.get?_cons_succ]; exact hj, hin, hjid⟩

theorem filter_jid_unique (jid : ℕ) (js : List Job)
    (hnodup : ((js.filter (fun j => j.inQueue)).map Job.jid).Nodup) :
    ∀ j ∈ js, j.inQueue = true → j.jid = jid →
    ∀ j2 ∈ js, j2.inQueue = true → j2.jid = jid → j2 = j := by
  induction js with
  | nil =>
    intro j hj
    cases hj
  | cons x rest ih =>
    intro j hj hin hjid j2 hj2 hin2 hjid2
    by_cases hx : x.inQueue = true
    · have hfil : (x :: rest).filter (fun j => j.inQueue)
          = x :: rest.filter (fun j => j.inQueue) := by
        simp [List.filter_cons, hx]
      rw [hfil, List.map_cons, List.nodup_cons] at hnodup
      obtain ⟨hnotin, hnodup2⟩ := hnodup
      rcases List.mem_cons.mp hj with he | hjr
      · rcases List.mem_cons.mp hj2 with he2 | hj2r
        · rw [he2, he]
        · exfalso
          apply hnotin
          have hm : j2.jid ∈ (rest.filter (fun j => j.inQueue)).map Job.jid :=
            List.mem_map_of_mem _ (List.mem_filter.mpr ⟨hj2r, hin2⟩)
          rw [hjid2] at hm
          have hxj : x.jid = jid := by
            rw [← he]
            exact hjid
          rw [hxj]
          exact hm
      · rcases List.mem_cons.mp hj2 with he2 | hj2r
        · exfalso
          apply hnotin
          have hm : j.jid ∈ (rest.filter (fun j => j.inQueue)).map Job.jid :=
            List.mem_map_of_mem _ (List.mem_filter.mpr ⟨hjr, hin⟩)
          rw [hjid] at hm
          have hxj : x.jid = jid := by
            rw [← he2]
            exact hjid2
          rw [hxj]
          exact hm
        · exact ih hnodup2 j hjr hin hjid j2 hj2r hin2 hjid2
    · have hfil : (x :: rest).filter (fun j => j.inQueue)
          = rest.filter (fun j => j.inQueue) := by
        simp only [List.filter_cons]
        rw [if_neg hx]
      rw [hfil] at hnodup
      rcases List.mem_cons.mp hj with he | hjr
      · exfalso
        rw [he] at hin
        exact hx hin
      · rcases List.mem_cons.mp hj2 with he2 | hj2r
        · exfalso
          rw [he2] at hin2
          exact hx hin2
        · exact ih hnodup j hjr hin hjid j2 hj2r hin2 hjid2

/-- Claim C7: per-item cancel.  With distinct ids in the queue, cancel
succeeds exactly when a job with the id exists in the queue and is still
queued, in which case only that job's status changes (to canceled); on any
failure the state is unchanged, and an unknown id reports not-found. -/
theorem C7_cancel_item :
    ∀ (s : SysState) (jid : ℕ),
      ((s.jobs.filter (fun j => j.inQueue)).map Job.jid).Nodup →
      (((api_cancel jid s).2 = CancelResult.ok)
        ↔ ∃ j ∈ s.jobs, j.inQueue = true ∧ j.jid = jid ∧ j.status = Status.queued)
      ∧ ((api_cancel jid s).2 = CancelResult.ok →
          ∃ i j, s.jobs.get? i = some j ∧ j.inQueue = true ∧ j.jid = jid
            ∧ j.status = Status.queued
            ∧ (api_cancel jid s).1.jobs
                = s.jobs.set i { j with status := Status.canceled })
      ∧ ((api_cancel jid s).2 ≠ CancelResult.ok → (api_cancel jid s).1 = s)
      ∧ ((¬ ∃ j ∈ s.jobs, j.inQueue = true ∧ j.jid = jid) →
          (api_cancel jid s).2 = CancelResult.notFound) := by
  intro s jid hnodup
  obtain ⟨he1, he2⟩ := api_cancel_eq jid s
  rcases hf : findQueueIdx jid s.jobs with _ | i
  · have hres1 : (cancelInList jid s.jobs).1 = s.jobs := by
      simp [cancelInList, hf]
    have hres2 : (cancelInList jid s.jobs).2 = CancelResult.notFound := by
      simp [cancelInList, hf]
    have hno : ∀ j ∈ s.jobs, ¬(j.inQueue = true ∧ j.jid = jid) :=
      (findQueueIdx_none_iff jid s.jobs).mp hf
    refine ⟨?_, ?_, ?_, ?_⟩
    · rw [he2, hres2]
      constructor
      · intro h
        exact absurd h (by decide)
      · rintro ⟨j, hj, hin, hjid, -⟩
        exact absurd ⟨hin, hjid⟩ (hno j hj)
    · rw [he2, hres2]
      intro h
      exact absurd h (by decide)
    · intro _
      rw [he1, hres1]
    · intro _
      rw [he2, hres2]
  · obtain ⟨j, hj, hin, hjid⟩ := findQueueIdx_some jid s.jobs i hf
    have hj2 : s.jobs[i]? = some j := by
      rw [← List.get?_eq_getElem?]
      exact hj
    by_cases hq : j.status = Status.queued
    · have hres1 : (cancelInList jid s.jobs).1
          = s.jobs.set i { j with status := Status.canceled } := by
        simp [cancelInList, hf, hj2, hq]
      have hres2 : (cancelInList jid s.jobs).2 = CancelResult.ok := by
        simp [cancelInList, hf, hj2, hq]
      refine ⟨?_, ?_, ?_, ?_⟩
      · rw [he2, hres2]
        exact ⟨fun _ => ⟨j, List.get?_mem hj, hin, hjid, hq⟩, fun _ => rfl⟩
      · intro _
        refine ⟨i, j, hj, hin, hjid, hq, ?_⟩
        rw [he1, hres1]
      · rw [he2, hres2]
        intro h
        exact absurd rfl h
      · intro h
        exact absurd ⟨j, List.get?_mem hj, hin, hjid⟩ h
    · have hres1 : (cancelInList jid s.jobs).1 = s.jobs := by
        simp [cancelInList, hf, hj2, hq]
      have hres2 : (cancelInList jid s.jobs).2 = CancelResult.notQueued := by
        simp [cancelInList, hf, hj2, hq]
      refine ⟨?_, ?_, ?_, ?_⟩
      · rw [he2, hres2]
        constructor
        · intro h
          exact absurd h (by decide)
        · rintro ⟨j2, hj2, hin2, hjid2, hq2⟩
          have he := filter_jid_unique jid s.jobs hnodup j (List.get?_mem hj) hin hjid
            j2 hj2 hin2 hjid2
          rw [he] at hq2
          exact absurd hq2 hq
      · rw [he2, hres2]
        intro h
        exact absurd h (by decide)
      · intro _
        rw [he1, hres1]
      · intro h
        exact absurd ⟨j, List.get?_mem hj, hin, hjid⟩ h

/-- Witness for C7: cancelling the queued job with id 1 in the 3-job state
succeeds. -/
theorem C7_cancel_item_witness :
    ((exState3.jobs.filter (fun j => j.inQueue)).map Job.jid).Nodup
    ∧ (api_cancel 1 exState3).2 = CancelResult.ok :=
  ⟨by decide,
   (C7_cancel_item exState3 1 (by decide)).1.mpr
     ⟨freshJob 1, by decide, by decide, by decide, by decide⟩⟩

theorem job_set_inQueue_self (j : Job) (b : Bool) (h : j.inQueue = b) :
    ({ j with inQueue := b } : Job) = j := by
  cases j
  simp_all

theorem map_setInQueue_filter (js : List Job) :
    (js.map (fun j => { j with inQueue := j.inQueue && j.status == Status.running })).filter
        (fun j => j.inQueue)
      = (js.filter (fun j => j.inQueue)).filter (fun j => j.status == Status.running) := by
  induction js with
  | nil => rfl
  | cons j rest ih =>
    rw [List.map_cons, List.filter_cons, List.filter_cons]
    have hproj : ({ j with inQueue := j.inQueue && j.status == Status.running } : Job).inQueue
        = (j.inQueue && j.status == Status.running) := rfl
    by_cases hin : j.inQueue = true
    · by_cases hrun : (j.status == Status.running) = true
      · have hc : ({ j with inQueue := j.inQueue && j.status == Status.running } : Job).inQueue
            = true := by
          rw [hproj, hin, hrun]
          rfl
        rw [if_pos hc, if_pos hin, List.filter_cons, if_pos hrun,
          job_set_inQueue_self j _ (by rw [hin, hrun]; rfl), ih]
      · rw [Bool.not_eq_true] at hrun
        have hc : ¬(({ j with inQueue := j.inQueue && j.status == Status.running } : Job).inQueue
            = true) := by
          rw [hproj, hrun, Bool.and_false]
          exact Bool.false_ne_true
        have hrun2 : ¬((j.status == Status.running) = true) := by
          rw [hrun]
          exact Bool.false_ne_true
        rw [if_neg hc, if_pos hin, List.filter_cons, if_neg hrun2]
        exact ih
    · rw [Bool.not_eq_true] at hin
      have hc : ¬(({ j with inQueue := j.inQueue && j.status == Status.running } : Job).inQueue
          = true) := by
        rw [hproj, hin, Bool.false_and]
        exact Bool.false_ne_true
      have hin2 : ¬(j.inQueue = true) := by
        rw [hin]
        exact Bool.false_ne_true
      rw [if_neg hc, if_neg hin2]
      exact ih

theorem map_clearAll_filter (js : List Job) :
    (js.map (fun j => { j with inQueue := false })).filter (fun j => j.inQueue) = [] := by
  induction js with
  | nil => rfl
  | cons j rest ih =>
    rw [List.map_cons, List.filter_cons, if_neg (by simp)]
    exact ih

/-- Claim C10: clear semantics.  clear_queue with running_only keeps exactly
the running jobs in their original order; a full clear empties the queue
entirely, running jobs included; the route picks running_only exactly when
the scheduler's running flag is set; and a full clear removes a record that
a still-live execution thread afterwards continues to mutate. -/
theorem C10_clear_semantics :
    (∀ (q : List Job) (j : Job),
        j ∈ clear_queue q true ↔ j ∈ q ∧ j.status = Status.running)
    ∧ (∀ q : List Job, (clear_queue q true).Sublist q)
    ∧ (∀ q : List Job, clear_queue q false = [])
    ∧ (∀ s : SysState, queueOf (apiClearOp s) = clear_queue (queueOf s) s.running)
    ∧ (queueOf (applyOp exStateClear Op.apiClear) = []
       ∧ ((applyOp exStateClear Op.apiClear).jobs.get? 0).isSome = true
       ∧ (((applyOp (applyOp exStateClear Op.apiClear)
              (Op.finish 0 (FinishOutcome.fdone "dest".data))).jobs.get? 0).map Job.status)
            = some Status.done) := by
  refine ⟨?_, ?_, fun q => rfl, ?_, by decide⟩
  · intro q j
    constructor
    · intro h
      have h2 := List.mem_filter.mp h
      exact ⟨h2.1, beq_iff_eq.mp h2.2⟩
    · intro ⟨h1, h2⟩
      exact List.mem_filter.mpr ⟨h1, beq_iff_eq.mpr h2⟩
  · intro q
    exact List.filter_sublist q
  · intro s
    by_cases hr : s.running = true
    · rw [hr]
      have hop : apiClearOp s = { s with jobs := clearJobs true s.jobs } := by
        simp [apiClearOp, hr]
      rw [hop]
      exact map_setInQueue_filter s.jobs
    · rw [Bool.not_eq_true] at hr
      rw [hr]
      have hop : apiClearOp s = { s with jobs := clearJobs false s.jobs } := by
        simp [apiClearOp, hr]
      rw [hop]
      exact map_clearAll_filter s.jobs

/-- Witness for C10: the route-level equation at the one-running-job state
and membership in the kept queue. -/
theorem C10_clear_semantics_witness :
    queueOf (apiClearOp exStateClear) = clear_queue (queueOf exStateClear) exStateClear.running
    ∧ ({ freshJob 7 with status := Status.running } : Job)
        ∈ clear_queue [{ freshJob 7 with status := Status.running }] true :=
  ⟨C10_clear_semantics.2.2.2.1 exStateClear,
   (C10_clear_semantics.1 [{ freshJob 7 with status := Status.running }]
      { freshJob 7 with status := Status.running }).mpr ⟨by decide, rfl⟩⟩

theorem ite_isEmpty_ne_nil (l : List Char) :
    (if l.isEmpty then "untitled".data else l) ≠ [] := by
  by_cases h : l.isEmpty = true
  · rw [if_pos h]
    decide
  · rw [if_neg h]
    intro hc
    rw [hc] at h
    exact h rfl

theorem sanitize_filename_ne_nil (name : List Char) : sanitize_filename name ≠ [] := by
  unfold sanitize_filename
  exact ite_isEmpty_ne_nil _

theorem matchDotPlus_spec (ws s2 : List Char) (hws : ∀ c ∈ ws, pyIsSpace c = true)
    (hs2h : ∀ x, s2.head? = some x → pyIsSpace x = false) (hs2 : s2 ≠ [])
    (hs2n : ∀ c ∈ s2, c ≠ '\n') :
    matchDotPlus (ws ++ s2) = some s2 := by
  obtain ⟨c2, s2t, rfl⟩ : ∃ c2 s2t, s2 = c2 :: s2t := by
    cases s2 with
    | nil => exact absurd rfl hs2
    | cons a l => exact ⟨a, l, rfl⟩
  have htw : (ws ++ c2 :: s2t).takeWhile pyIsSpace = ws :=
    takeWhile_append_all _ ws _ hws hs2h
  have htn : (c2 :: s2t).takeWhile (fun ch => ch != '\n') = c2 :: s2t :=
    takeWhile_all_eq _ _ (fun c hc => by simp [bne, hs2n c hc])
  simp only [matchDotPlus, htw]
  rw [List.drop_left]
  simp only [htn]

theorem matchArtistSong_split (pre : List Char) (d : Char) (ws s2 : List Char)
    (hpre : pre ≠ []) (hpred : ∀ c ∈ pre, isDashSep c = false) (hd : isDashSep d = true)
    (hws : ∀ c ∈ ws, pyIsSpace c = true)
    (hs2h : ∀ x, s2.head? = some x → pyIsSpace x = false) (hs2 : s2 ≠ [])
    (hs2n : ∀ c ∈ s2, c ≠ '\n') :
    matchArtistSong (pre ++ d :: (ws ++ s2)) = some (pre, s2) := by
  have htake : (pre ++ d :: (ws ++ s2)).takeWhile (fun c => !(isDashSep c)) = pre :=
    takeWhile_append_all _ pre _ (fun c hc => by rw [hpred c hc]; rfl)
      (by intro x hx; simp at hx; subst hx; rw [hd]; rfl)
  have hdp := matchDotPlus_spec ws s2 hws hs2h hs2 hs2n
  simp only [matchArtistSong, htake, isEmpty_false_of_ne hpre, Bool.false_eq_true, if_false]
  rw [List.drop_left]
  simp only [hdp]

/-- Claim C9: artist/song derivation for staging.  The two concrete examples
of the spec; in general the first hyphen/en-dash/em-dash separator splits
artist from song, a title with no separator falls back to the channel as
artist, and an empty title yields song "untitled". -/
theorem C9_artist_song :
    parse_artist_song (some "Queen - Bohemian Rhapsody".data) none
        = (some "Queen".data, "Bohemian Rhapsody".data)
    ∧ parse_artist_song (some "Untitled Track".data) (some "Cool Channel".data)
        = (some "Cool Channel".data, "Untitled Track".data)
    ∧ (∀ (title : List Char) (ch : Option (List Char)) (pre : List Char) (d : Char)
          (ws s2 : List Char),
        pyStrip title = pre ++ d :: (ws ++ s2) →
        pre ≠ [] → (∀ c ∈ pre, isDashSep c = false) → isDashSep d = true →
        (∀ c ∈ ws, pyIsSpace c = true) →
        (∀ x, s2.head? = some x → pyIsSpace x = false) → s2 ≠ [] →
        (∀ c ∈ s2, c ≠ '\n') →
        parse_artist_song (some title) ch
          = (some (sanitize_filename (pyStrip pre)), sanitize_filename (pyStrip s2)))
    ∧ (∀ (title : List Char) (ch : Option (List Char)),
        pyStrip title ≠ [] → (∀ c ∈ pyStrip title, isDashSep c = false) →
        parse_artist_song (some title) ch
          = (chanAndSanitize ch, sanitize_filename (pyStrip title)))
    ∧ (∀ (title : List Char) (ch : Option (List Char)),
        pyStrip title = [] →
        parse_artist_song (some title) ch = (pyOrNone ch, "untitled".data)) := by
  refine ⟨by decide, by decide, ?_, ?_, ?_⟩
  · intro title ch pre d ws s2 hsplit hpre hpred hd hws hs2h hs2 hs2n
    have hm := matchArtistSong_split pre d ws s2 hpre hpred hd hws hs2h hs2 hs2n
    have hne : pre ++ d :: (ws ++ s2) ≠ [] := by simp
    simp only [parse_artist_song, Option.getD_some, hsplit, isEmpty_false_of_ne hne,
      Bool.false_eq_true, if_false, hm,
      isEmpty_false_of_ne (sanitize_filename_ne_nil (pyStrip pre))]
  · intro title ch hne hnd
    have htake : (pyStrip title).takeWhile (fun c => !(isDashSep c)) = pyStrip title :=
      takeWhile_all_eq _ _ (fun c hc => by rw [hnd c hc]; rfl)
    have hm : matchArtistSong (pyStrip title) = none := by
      simp only [matchArtistSong, htake, isEmpty_false_of_ne hne, Bool.false_eq_true,
        if_false, List.drop_length]
    simp only [parse_artist_song, Option.getD_some, isEmpty_false_of_ne hne,
      Bool.false_eq_true, if_false, hm]
  · intro title ch he
    simp only [parse_artist_song, Option.getD_some, he, List.isEmpty_nil, if_true]

/-- Witness for C9 at a concrete split title, a no-separator title, and an
empty title. -/
theorem C9_artist_song_witness :
    parse_artist_song (some "AC DC – Thunder".data) (some "Chan".data)
        = (some (sanitize_filename (pyStrip "AC DC ".data)),
           sanitize_filename (pyStrip "Thunder".data))
    ∧ parse_artist_song (some "Solo".data) (some "Chan".data)
        = (chanAndSanitize (some "Chan".data), sanitize_filename (pyStrip "Solo".data))
    ∧ parse_artist_song (some "  ".data) (some "Chan".data)
        = (pyOrNone (some "Chan".data), "untitled".data) :=
  ⟨C9_artist_song.2.2.1 "AC DC – Thunder".data (some "Chan".data)
      "AC DC ".data '–' " ".data "Thunder".data
      (by decide) (by decide) (by decide) (by decide) (by decide) (by decide)
      (by decide) (by decide),
   C9_artist_song.2.2.2.1 "Solo".data (some "Chan".data) (by decide) (by decide),
   C9_artist_song.2.2.2.2 "  ".data (some "Chan".data) (by decide)⟩
